import Mathlib

/-!
Shallow embedding of the WASM matrix solver (`src/wasm/matrix_solver.c` and
`src/wasm/matrix_solver_simd.c`): LU factorization by Crout's method with
partial pivoting (`lu_factor`) and the associated triangular solver
(`lu_solve`), together with the SIMD build's variants.

Machine doubles are modelled as exact rationals (ℚ); the flat row-major
buffers are modelled as `Array ℚ`, reads out of range give 0 and writes out
of range are dropped (`Array.getD` / `Array.setD`).  All loops of the C
code become structural recursions on an explicit iteration count.
-/

namespace MatrixSolver

/-- Read entry `i` of a flat buffer (out-of-range reads give `0`). -/
def aget (a : Array ℚ) (i : Nat) : ℚ := a.getD i 0

/-- Read entry `i` of an integer buffer (out-of-range reads give `0`). -/
def iget (a : Array ℤ) (i : Nat) : ℤ := a.getD i 0

/-- `f 0 + f 1 + ... + f (c-1)`, the value accumulated by an ascending C loop. -/
def sumTo (f : Nat → ℚ) : Nat → ℚ
  | 0 => 0
  | c + 1 => sumTo f c + f c

/-- The reduced value `q` computed by the inner loops of `lu_factor`:
`q = a[i][j] - Σ_{k<m} a[i][k]*a[k][j]`. -/
def reduceEntry (a : Array ℚ) (n i j m : Nat) : ℚ :=
  aget a (i * n + j) - sumTo (fun k => aget a (i * n + k) * aget a (k * n + j)) m

/-- Upper-triangular pass of column `j` (`matrix_solver.c` lines 46-52): for
`i = 0, …, cnt-1` replace `a[i][j]` by its reduced value (reduction length `i`). -/
def upperLoop (n j : Nat) (a : Array ℚ) : Nat → Array ℚ
  | 0 => a
  | i + 1 =>
    let a1 := upperLoop n j a i
    a1.setD (i * n + j) (reduceEntry a1 n i j i)

/-- State of the pivot-search loop: the buffer, the running maximum `largest`
and the running pivot candidate `largestRow` (initialized to `-1`). -/
structure LowerState where
  a : Array ℚ
  largest : ℚ
  largestRow : ℤ
deriving DecidableEq

/-- One iteration of the lower-triangular pass at row `i`
(`matrix_solver.c` lines 57-68): reduce `a[i][j]` (reduction length `j`),
store it, and update the pivot candidate with the `>=` comparison. -/
def lowerStep (n j : Nat) (s : LowerState) (i : Nat) : LowerState :=
  let q := reduceEntry s.a n i j j
  let a1 := s.a.setD (i * n + j) q
  if |q| ≥ s.largest then ⟨a1, |q|, (i : ℤ)⟩ else ⟨a1, s.largest, s.largestRow⟩

/-- Lower-triangular pass of column `j`: rows `i = j, …, j+cnt-1`. -/
def lowerLoop (n j : Nat) (s : LowerState) : Nat → LowerState
  | 0 => s
  | c + 1 => lowerStep n j (lowerLoop n j s c) (j + c)

/-- Whole-row exchange of rows `r1` and `r2` (`matrix_solver.c` lines 76-80):
columns `k = 0, …, cnt-1` are swapped one at a time. -/
def swapRows (n r1 r2 : Nat) (a : Array ℚ) : Nat → Array ℚ
  | 0 => a
  | k + 1 =>
    let a1 := swapRows n r1 r2 a k
    let x := aget a1 (r1 * n + k)
    (a1.setD (r1 * n + k) (aget a1 (r2 * n + k))).setD (r2 * n + k) x

/-- Scaling of the sub-diagonal part of column `j` (`matrix_solver.c` lines
93-96): `a[i][j] *= mult` for `i = j+1, …, j+cnt`. -/
def scaleLoop (n j : Nat) (mult : ℚ) (a : Array ℚ) : Nat → Array ℚ
  | 0 => a
  | c + 1 =>
    let a1 := scaleLoop n j mult a c
    a1.setD ((j + 1 + c) * n + j) (aget a1 ((j + 1 + c) * n + j) * mult)

/-- Result of `lu_factor`: the C return value (`-1` on success, else the
failing row/column index) together with the final contents of the two
caller-owned buffers. -/
structure FactorOut where
  ret : ℤ
  a : Array ℚ
  ipvt : Array ℤ
deriving DecidableEq

/-- Tail of one column iteration of `lu_factor` after the pivot search and
optional swap (`matrix_solver.c` lines 83-97): record `ipvt[j] = largestRow`,
fail on a zero diagonal, otherwise scale the sub-diagonal column (except for
the last column).  `Except.error` is a `return j` of the C code. -/
def factorColPost (n j : Nat) (a : Array ℚ) (ip : Array ℤ) (lr : ℤ) :
    Except FactorOut (Array ℚ × Array ℤ) :=
  let ip1 := ip.setD j lr
  if aget a (j * n + j) = 0 then .error ⟨j, a, ip1⟩
  else if j ≠ n - 1 then
    .ok (scaleLoop n j (1 / aget a (j * n + j)) a (n - (j + 1)), ip1)
  else .ok (a, ip1)

/-- One column iteration of `lu_factor` (`matrix_solver.c` lines 43-97):
upper pass, lower pass with pivot search, then either the `largestRow == -1`
failure, or an optional whole-row swap followed by `factorColPost`. -/
def factorColumn (n j : Nat) (a : Array ℚ) (ip : Array ℤ) :
    Except FactorOut (Array ℚ × Array ℤ) :=
  let a1 := upperLoop n j a j
  let s := lowerLoop n j ⟨a1, 0, -1⟩ (n - j)
  if (j : ℤ) = s.largestRow then factorColPost n j s.a ip s.largestRow
  else if s.largestRow = -1 then .error ⟨j, s.a, ip⟩
  else factorColPost n j (swapRows n s.largestRow.toNat j s.a n) ip s.largestRow

/-- The column loop of `lu_factor`, columns `j, …, j+c-1`; when the loop
exhausts its columns the function returns `-1` (success). -/
def factorLoop (n : Nat) (a : Array ℚ) (ip : Array ℤ) (j : Nat) : Nat → FactorOut
  | 0 => ⟨-1, a, ip⟩
  | c + 1 =>
    match factorColumn n j a ip with
    | .error out => out
    | .ok (a1, ip1) => factorLoop n a1 ip1 (j + 1) c

/-- `a[i][0] = 0 ∧ … ∧ a[i][cnt-1] = 0`: the all-zero test of the row
pre-check (`matrix_solver.c` lines 30-36). -/
def rowAllZeros (a : Array ℚ) (n i : Nat) : Nat → Bool
  | 0 => true
  | c + 1 => rowAllZeros a n i c && decide (aget a (i * n + c) = 0)

/-- The pre-check of `lu_factor` (`matrix_solver.c` lines 29-40): scan rows
`i, …, i+c-1` in order and report the first all-zero row. -/
def findZeroRow (a : Array ℚ) (n i : Nat) : Nat → Option Nat
  | 0 => none
  | c + 1 => if rowAllZeros a n i n then some i else findZeroRow a n (i + 1) c

/-- `lu_factor` of `matrix_solver.c` (lines 25-101): zero-row pre-check, then
Crout column elimination with partial pivoting.  Returns the C return value
(`-1` on success) and the final matrix and pivot buffers. -/
def lu_factor (a : Array ℚ) (n : Nat) (ip : Array ℤ) : FactorOut :=
  match findZeroRow a n 0 n with
  | some i => ⟨i, a, ip⟩
  | none => factorLoop n a ip 0 n

/-- Permutation loop of `lu_solve` (`matrix_solver.c` lines 116-127): starting
at index `i` with `c` iterations left, exchange `b[ipvt[i]]` and `b[i]`; on the
first nonzero swapped-in value set `bi = i`, increment `i` and break.  Returns
`(b, bi, i)` at exit (on full completion `bi` keeps its initial value `0`). -/
def permLoop (ip : Array ℤ) (b : Array ℚ) (i : Nat) : Nat → Array ℚ × Nat × Nat
  | 0 => (b, 0, i)
  | c + 1 =>
    let row := (iget ip i).toNat
    let sw := aget b row
    let b1 := (b.setD row (aget b i)).setD i sw
    if sw ≠ 0 then (b1, i, i + 1) else permLoop ip b1 (i + 1) c

/-- Forward-substitution loop of `lu_solve` (`matrix_solver.c` lines 130-138):
for each remaining `i`, exchange `b[ipvt[i]]` with `b[i]` and subtract
`Σ_{j=bi}^{i-1} a[i][j]*b[j]`. -/
def forwardLoop (a : Array ℚ) (n : Nat) (ip : Array ℤ) (bi : Nat)
    (b : Array ℚ) (i : Nat) : Nat → Array ℚ
  | 0 => b
  | c + 1 =>
    let row := (iget ip i).toNat
    let tot0 := aget b row
    let b1 := b.setD row (aget b i)
    let tot := tot0 - sumTo (fun k => aget a (i * n + (bi + k)) * aget b1 (bi + k)) (i - bi)
    forwardLoop a n ip bi (b1.setD i tot) (i + 1) c

/-- Back-substitution loop of `lu_solve` (`matrix_solver.c` lines 141-147):
with `c+1` rows left it processes row `i = c`, subtracting
`Σ_{j=i+1}^{n-1} a[i][j]*b[j]` and dividing by the diagonal. -/
def backLoop (a : Array ℚ) (n : Nat) (b : Array ℚ) : Nat → Array ℚ
  | 0 => b
  | c + 1 =>
    let tot := aget b c - sumTo (fun k => aget a (c * n + (c + 1 + k)) * aget b (c + 1 + k)) (n - (c + 1))
    backLoop a n (b.setD c (tot / aget a (c * n + c))) c

/-- `lu_solve` of `matrix_solver.c` (lines 112-148): permutation scan with
early stop, forward substitution from the stop index, back substitution. -/
def lu_solve (a : Array ℚ) (n : Nat) (ip : Array ℤ) (b : Array ℚ) : Array ℚ :=
  let r := permLoop ip b 0 n
  let b2 := forwardLoop a n ip r.2.1 r.1 r.2.2 (n - r.2.2)
  backLoop a n b2 n

/-- The `n×n` matrix held by a flat row-major buffer. -/
def toMatrix (a : Array ℚ) (n : Nat) : Matrix (Fin n) (Fin n) ℚ :=
  Matrix.of fun i j => aget a (i.val * n + j.val)

/-! ## The SIMD build (`matrix_solver_simd.c`)

The 2-wide `f64x2` lanes are modelled exactly: a pair loop accumulates the
two lanes separately (`laneSum`), the horizontal add sums the lanes, and a
scalar tail handles the trailing element. -/

/-- The two lanes accumulated by a 2-wide pair loop over `p` pairs:
lane 0 holds `Σ f(2t)*g(2t)`, lane 1 holds `Σ f(2t+1)*g(2t+1)`. -/
def laneSum (f g : Nat → ℚ) : Nat → ℚ × ℚ
  | 0 => (0, 0)
  | p + 1 =>
    let s := laneSum f g p
    (s.1 + f (2 * p) * g (2 * p), s.2 + f (2 * p + 1) * g (2 * p + 1))

/-- Upper-triangular pass of the SIMD `lu_factor` (`matrix_solver_simd.c`
lines 111-122): identical to the scalar pass except for the `if (i > 0)`
guard around the reduction loop. -/
def upperLoopSimd (n j : Nat) (a : Array ℚ) : Nat → Array ℚ
  | 0 => a
  | i + 1 =>
    let a1 := upperLoopSimd n j a i
    let q0 := aget a1 (i * n + j)
    let q := if 0 < i then
        q0 - sumTo (fun k => aget a1 (i * n + k) * aget a1 (k * n + j)) i
      else q0
    a1.setD (i * n + j) q

/-- One iteration of the SIMD lower pass (`matrix_solver_simd.c` lines
127-162): for `j > 1` the reduction runs as `j/2` two-lane pairs, a
horizontal add, and a scalar tail; otherwise as the scalar loop. -/
def lowerStepSimd (n j : Nat) (s : LowerState) (i : Nat) : LowerState :=
  let q0 := aget s.a (i * n + j)
  let q :=
    if 1 < j then
      let l := laneSum (fun k => aget s.a (i * n + k)) (fun k => aget s.a (k * n + j)) (j / 2)
      let q1 := q0 - (l.1 + l.2)
      q1 - sumTo
        (fun t => aget s.a (i * n + (2 * (j / 2) + t)) * aget s.a ((2 * (j / 2) + t) * n + j))
        (j - 2 * (j / 2))
    else
      q0 - sumTo (fun k => aget s.a (i * n + k) * aget s.a (k * n + j)) j
  let a1 := s.a.setD (i * n + j) q
  if |q| ≥ s.largest then ⟨a1, |q|, (i : ℤ)⟩ else ⟨a1, s.largest, s.largestRow⟩

/-- Lower pass of the SIMD `lu_factor`: rows `i = j, …, j+cnt-1`. -/
def lowerLoopSimd (n j : Nat) (s : LowerState) : Nat → LowerState
  | 0 => s
  | c + 1 => lowerStepSimd n j (lowerLoopSimd n j s c) (j + c)

/-- Pair part of `swap_rows_simd` (`matrix_solver_simd.c` lines 52-57): each
step loads both two-element groups and stores them crosswise. -/
def swapRowsSimdPairs (n r1 r2 : Nat) (a : Array ℚ) : Nat → Array ℚ
  | 0 => a
  | p + 1 =>
    let a1 := swapRowsSimdPairs n r1 r2 a p
    let i := 2 * p
    let x0 := aget a1 (r1 * n + i)
    let x1 := aget a1 (r1 * n + (i + 1))
    let y0 := aget a1 (r2 * n + i)
    let y1 := aget a1 (r2 * n + (i + 1))
    ((((a1.setD (r1 * n + i) y0).setD (r1 * n + (i + 1)) y1).setD
      (r2 * n + i) x0).setD (r2 * n + (i + 1)) x1)

/-- `swap_rows_simd` (`matrix_solver_simd.c` lines 48-65): `n/2` vector pairs
followed by a scalar swap of the trailing element when `n` is odd. -/
def swapRowsSimd (n r1 r2 : Nat) (a : Array ℚ) : Array ℚ :=
  let a1 := swapRowsSimdPairs n r1 r2 a (n / 2)
  if 2 * (n / 2) < n then
    let i := 2 * (n / 2)
    let t := aget a1 (r1 * n + i)
    (a1.setD (r1 * n + i) (aget a1 (r2 * n + i))).setD (r2 * n + i) t
  else a1

/-- One column iteration of the SIMD `lu_factor` (`matrix_solver_simd.c`
lines 108-187).  The post-pivot tail (pivot record, zero-diagonal check,
scalar column scaling) is character-identical to the scalar build, so
`factorColPost` is shared. -/
def factorColumnSimd (n j : Nat) (a : Array ℚ) (ip : Array ℤ) :
    Except FactorOut (Array ℚ × Array ℤ) :=
  let a1 := upperLoopSimd n j a j
  let s := lowerLoopSimd n j ⟨a1, 0, -1⟩ (n - j)
  if (j : ℤ) = s.largestRow then factorColPost n j s.a ip s.largestRow
  else if s.largestRow = -1 then .error ⟨j, s.a, ip⟩
  else factorColPost n j (swapRowsSimd n s.largestRow.toNat j s.a) ip s.largestRow

/-- Column loop of the SIMD `lu_factor`. -/
def factorLoopSimd (n : Nat) (a : Array ℚ) (ip : Array ℤ) (j : Nat) : Nat → FactorOut
  | 0 => ⟨-1, a, ip⟩
  | c + 1 =>
    match factorColumnSimd n j a ip with
    | .error out => out
    | .ok (a1, ip1) => factorLoopSimd n a1 ip1 (j + 1) c

/-- `lu_factor` of `matrix_solver_simd.c` (lines 90-191).  The zero-row
pre-check is character-identical to the scalar build, so `findZeroRow` is
shared. -/
def lu_factor_simd (a : Array ℚ) (n : Nat) (ip : Array ℤ) : FactorOut :=
  match findZeroRow a n 0 n with
  | some i => ⟨i, a, ip⟩
  | none => factorLoopSimd n a ip 0 n

/-- Forward-substitution loop of the SIMD `lu_solve` (`matrix_solver_simd.c`
lines 220-248): when `i - bi ≥ 2` the inner sum runs as two-lane pairs plus
a scalar tail, otherwise as the scalar loop. -/
def forwardLoopSimd (a : Array ℚ) (n : Nat) (ip : Array ℤ) (bi : Nat)
    (b : Array ℚ) (i : Nat) : Nat → Array ℚ
  | 0 => b
  | c + 1 =>
    let row := (iget ip i).toNat
    let tot0 := aget b row
    let b1 := b.setD row (aget b i)
    let len := i - bi
    let tot :=
      if 2 ≤ len then
        let l := laneSum (fun t => aget a (i * n + (bi + t))) (fun t => aget b1 (bi + t)) (len / 2)
        let q1 := tot0 - (l.1 + l.2)
        q1 - sumTo
          (fun t => aget a (i * n + (bi + (2 * (len / 2) + t))) * aget b1 (bi + (2 * (len / 2) + t)))
          (len - 2 * (len / 2))
      else
        tot0 - sumTo (fun k => aget a (i * n + (bi + k)) * aget b1 (bi + k)) len
    forwardLoopSimd a n ip bi (b1.setD i tot) (i + 1) c

/-- Back-substitution loop of the SIMD `lu_solve` (`matrix_solver_simd.c`
lines 251-276), with the same pair/tail split for `len = n - 1 - i ≥ 2`. -/
def backLoopSimd (a : Array ℚ) (n : Nat) (b : Array ℚ) : Nat → Array ℚ
  | 0 => b
  | c + 1 =>
    let len := n - 1 - c
    let tot :=
      if 2 ≤ len then
        let l := laneSum (fun t => aget a (c * n + (c + 1 + t))) (fun t => aget b (c + 1 + t)) (len / 2)
        let q1 := aget b c - (l.1 + l.2)
        q1 - sumTo
          (fun t => aget a (c * n + (c + 1 + (2 * (len / 2) + t))) * aget b (c + 1 + (2 * (len / 2) + t)))
          (len - 2 * (len / 2))
      else
        aget b c - sumTo (fun t => aget a (c * n + (c + 1 + t)) * aget b (c + 1 + t)) (n - (c + 1))
    backLoopSimd a n (b.setD c (tot / aget a (c * n + c))) c

/-- `lu_solve` of `matrix_solver_simd.c` (lines 202-277).  The permutation
scan (lines 206-217) is character-identical to the scalar build, so
`permLoop` is shared. -/
def lu_solve_simd (a : Array ℚ) (n : Nat) (ip : Array ℤ) (b : Array ℚ) : Array ℚ :=
  let r := permLoop ip b 0 n
  let b2 := forwardLoopSimd a n ip r.2.1 r.1 r.2.2 (n - r.2.2)
  backLoopSimd a n b2 n

/-! ## Auxiliary definitions used by the specification statements -/

/-- The post-reduction candidate value of row `i` at column `j`, computed
against the state the pivot-search loop starts from. -/
def lval (a : Array ℚ) (n j i : Nat) : ℚ := reduceEntry a n i j j

/-- Prefix of the column loop: process columns `j, …, j+c-1`, stopping at the
first failure. -/
def runCols (n : Nat) (a : Array ℚ) (ip : Array ℤ) (j : Nat) : Nat → Except FactorOut (Array ℚ × Array ℤ)
  | 0 => .ok (a, ip)
  | c + 1 =>
    match factorColumn n j a ip with
    | .error e => .error e
    | .ok (a1, ip1) => runCols n a1 ip1 (j + 1) c

/-- Exchange the entries at positions `p1` and `p2` of a buffer. -/
def exchg (b : Array ℚ) (p1 p2 : Nat) : Array ℚ :=
  (b.setD p1 (aget b p2)).setD p2 (aget b p1)

/-- Apply the exchanges recorded in `ipvt` for indices `i, …, i+c-1`, in
order, without any early stop: position `i` is exchanged with `ipvt[i]`. -/
def permApply (ip : Array ℤ) (b : Array ℚ) (i : Nat) : Nat → Array ℚ
  | 0 => b
  | c + 1 => permApply ip (exchg b ((iget ip i).toNat) i) (i + 1) c

/-- Forward substitution over an already fully permuted right-hand side:
no interleaved exchanges, sums truncated to start at `bi`. -/
def pureFwdLoop (a : Array ℚ) (n bi : Nat) (b : Array ℚ) (i : Nat) : Nat → Array ℚ
  | 0 => b
  | c + 1 =>
    let tot := aget b i - sumTo (fun k => aget a (i * n + (bi + k)) * aget b (bi + k)) (i - bi)
    pureFwdLoop a n bi (b.setD i tot) (i + 1) c

/-- `f` with the values at `i` and `p` interchanged. -/
def swapFun (f : Nat → Nat) (i p : Nat) : Nat → Nat :=
  fun q => if q = i then f p else if q = p then f i else f q

/-- The row-origin map of the first `t` recorded exchanges: after those
exchanges, row slot `q` of the buffer holds row `rowMap ip t q` of the
original matrix. -/
def rowMap (ip : Array ℤ) : Nat → Nat → Nat
  | 0 => id
  | t + 1 => swapFun (rowMap ip t) t ((iget ip t).toNat)

/-- State invariant of `lu_factor` after `t` completed columns, relating the
current buffers to the original matrix `A0`: rows are a permutation
(`rowMap`) of the original rows, processed columns satisfy the Crout
product equations, unprocessed columns still hold (permuted) original
entries, recorded pivots are in range and processed diagonals are
nonzero. -/
structure FactorInv (A0 : Array ℚ) (n t : Nat) (a : Array ℚ) (ip : Array ℤ) : Prop where
  sizeA : a.size = n * n
  sizeIp : ip.size = n
  ipRange : ∀ j, j < t → (j : ℤ) ≤ iget ip j ∧ iget ip j < (n : ℤ)
  diagNe : ∀ j, j < t → aget a (j * n + j) ≠ 0
  unproc : ∀ i, i < n → ∀ c, t ≤ c → c < n →
    aget a (i * n + c) = aget A0 (rowMap ip t i * n + c)
  upperEq : ∀ c, c < t → ∀ i, i ≤ c →
    aget A0 (rowMap ip t i * n + c)
      = sumTo (fun k => aget a (i * n + k) * aget a (k * n + c)) i + aget a (i * n + c)
  lowerEq : ∀ c, c < t → ∀ i, i < n → c < i →
    aget A0 (rowMap ip t i * n + c)
      = sumTo (fun k => aget a (i * n + k) * aget a (k * n + c)) c
        + aget a (i * n + c) * aget a (c * n + c)

end MatrixSolver


namespace MatrixSolver

theorem toList_setD {α : Type} (a : Array α) (i : Nat) (v : α) :
    (a.setD i v).toList = a.toList.set i v := by
  unfold Array.setD
  split
  · simp
  · rw [List.set_eq_of_length_le]
    rw [← Array.size_eq_length_toList]
    omega

theorem toList_inj {α : Type} {a b : Array α} (h : a.toList = b.toList) : a = b := by
  cases a; cases b; simpa using h

theorem aget_eq (a : Array ℚ) (i : Nat) : aget a i = (a.toList[i]?).getD 0 := by
  unfold aget Array.getD
  split
  · next h =>
    rw [Array.get_eq_getElem, Array.getElem_eq_getElem_toList,
        List.getElem?_eq_getElem, Option.getD_some]
  · next h =>
    rw [List.getElem?_eq_none, Option.getD_none]
    rw [← Array.size_eq_length_toList]
    omega

theorem aget_setD (a : Array ℚ) (i j : Nat) (v : ℚ) :
    aget (a.setD i v) j = if i = j ∧ i < a.size then v else aget a j := by
  rw [aget_eq, aget_eq, toList_setD, List.getElem?_set']
  rcases eq_or_ne i j with rfl | hne
  · by_cases hi : i < a.size
    · rw [List.getElem?_eq_getElem (by rw [← Array.size_eq_length_toList]; omega)]
      simp [hi]
    · rw [List.getElem?_eq_none (by rw [← Array.size_eq_length_toList]; omega)]
      simp [hi]
  · simp [hne]

theorem aget_setD_self (a : Array ℚ) {i : Nat} (v : ℚ) (h : i < a.size) :
    aget (a.setD i v) i = v := by
  rw [aget_setD]; simp [h]

theorem aget_setD_ne (a : Array ℚ) {i j : Nat} (v : ℚ) (h : i ≠ j) :
    aget (a.setD i v) j = aget a j := by
  rw [aget_setD]; simp [h]

theorem aget_oob (a : Array ℚ) {i : Nat} (h : a.size ≤ i) : aget a i = 0 := by
  unfold aget Array.getD
  simp [Nat.not_lt_of_le h]

theorem setD_comm (a : Array ℚ) {i j : Nat} (v w : ℚ) (h : i ≠ j) :
    (a.setD i v).setD j w = (a.setD j w).setD i v := by
  apply toList_inj
  rw [toList_setD, toList_setD, toList_setD, toList_setD, List.set_comm _ _ _ h]

theorem sumTo_succ (f : Nat → ℚ) (c : Nat) : sumTo f (c + 1) = sumTo f c + f c := rfl

theorem sumTo_congr {f g : Nat → ℚ} {c : Nat} (h : ∀ k < c, f k = g k) :
    sumTo f c = sumTo g c := by
  induction c with
  | zero => rfl
  | succ c ih =>
    rw [sumTo_succ, ih (fun k hk => h k (Nat.lt_succ_of_lt hk)), h c (Nat.lt_succ_self c),
      ← sumTo_succ]

theorem sumTo_add (f : Nat → ℚ) (m r : Nat) :
    sumTo f (m + r) = sumTo f m + sumTo (fun t => f (m + t)) r := by
  induction r with
  | zero => simp [sumTo]
  | succ r ih =>
    have e : m + (r + 1) = (m + r) + 1 := by omega
    rw [e, sumTo_succ, sumTo_succ, ih]
    ring

theorem sumTo_zero_of {f : Nat → ℚ} {c : Nat} (h : ∀ k < c, f k = 0) : sumTo f c = 0 := by
  induction c with
  | zero => rfl
  | succ c ih =>
    rw [sumTo_succ, ih (fun k hk => h k (Nat.lt_succ_of_lt hk)), h c (Nat.lt_succ_self c)]
    ring

theorem sumTo_eq_range_sum (f : Nat → ℚ) (c : Nat) :
    sumTo f c = ∑ k ∈ Finset.range c, f k := by
  induction c with
  | zero => rfl
  | succ c ih => rw [sumTo_succ, Finset.sum_range_succ, ih]

theorem flat_inj {n i j i' j' : Nat} (hj : j < n) (hj' : j' < n)
    (h : i * n + j = i' * n + j') : i = i' ∧ j = j' := by
  have hn : 0 < n := Nat.lt_of_le_of_lt (Nat.zero_le j) hj
  have h1 : i = i' := by
    rcases Nat.lt_trichotomy i i' with hlt | he | hgt
    · exfalso
      have : i * n + j < i' * n + j' := by
        calc i * n + j < i * n + n := by omega
        _ = (i + 1) * n := by ring
        _ ≤ i' * n := Nat.mul_le_mul_right n hlt
        _ ≤ i' * n + j' := Nat.le_add_right _ _
      omega
    · exact he
    · exfalso
      have : i' * n + j' < i * n + j := by
        calc i' * n + j' < i' * n + n := by omega
        _ = (i' + 1) * n := by ring
        _ ≤ i * n := Nat.mul_le_mul_right n hgt
        _ ≤ i * n + j := Nat.le_add_right _ _
      omega
  subst h1
  exact ⟨rfl, by omega⟩

end MatrixSolver

namespace MatrixSolver

theorem upperLoop_succ (n j : Nat) (a : Array ℚ) (c : Nat) :
    upperLoop n j a (c + 1)
      = (upperLoop n j a c).setD (c * n + j) (reduceEntry (upperLoop n j a c) n c j c) := rfl

theorem size_upperLoop (n j : Nat) (a : Array ℚ) (c : Nat) :
    (upperLoop n j a c).size = a.size := by
  induction c with
  | zero => rfl
  | succ c ih => unfold upperLoop; rw [Array.size_setD, ih]

theorem upperLoop_unchanged (n j : Nat) (a : Array ℚ) (c : Nat) {p : Nat}
    (hp : ∀ i < c, p ≠ i * n + j) :
    aget (upperLoop n j a c) p = aget a p := by
  induction c with
  | zero => rfl
  | succ c ih =>
    unfold upperLoop
    rw [aget_setD_ne _ _ (fun e => hp c (Nat.lt_succ_self c) e.symm)]
    exact ih (fun i hi => hp i (Nat.lt_succ_of_lt hi))

theorem upperLoop_entry {n j : Nat} (a : Array ℚ) (ha : a.size = n * n) (hj : j < n)
    {c : Nat} (hc : c ≤ j) {i : Nat} (hi : i < c) :
    aget (upperLoop n j a c) (i * n + j)
      = aget a (i * n + j)
        - sumTo (fun k => aget a (i * n + k) * aget (upperLoop n j a c) (k * n + j)) i := by
  induction c with
  | zero => omega
  | succ c ih =>
    have hv : ∀ m < n, ∀ l < n, m * n + l < a.size := by
      intro m hm l hl
      rw [ha]
      calc m * n + l < m * n + n := by omega
        _ = (m + 1) * n := by ring
        _ ≤ n * n := Nat.mul_le_mul_right n hm
    rcases Nat.lt_succ_iff_lt_or_eq.mp hi with hlt | heq
    · -- entry i < c: untouched by the new write, use ih and congruence on the sum
      rw [upperLoop_succ]
      have hne : c * n + j ≠ i * n + j := by
        intro e; exact absurd (flat_inj hj hj e).1 (by omega)
      rw [aget_setD_ne _ _ hne, ih (by omega) hlt]
      congr 1
      apply sumTo_congr
      intro k hk
      have hkc : c * n + j ≠ k * n + j := by
        intro e; exact absurd (flat_inj hj hj e).1 (by omega)
      rw [aget_setD_ne _ _ hkc]
    · -- the newly written entry i = c
      subst heq
      rw [upperLoop_succ]
      have hsz : i * n + j < (upperLoop n j a i).size := by
        rw [size_upperLoop]; exact hv i (by omega) j hj
      rw [aget_setD_self _ _ hsz]
      unfold reduceEntry
      have h1 : aget (upperLoop n j a i) (i * n + j) = aget a (i * n + j) := by
        apply upperLoop_unchanged
        intro i' hi' e
        exact absurd (flat_inj hj hj e).1 (by omega)
      rw [h1]
      congr 1
      apply sumTo_congr
      intro k hk
      dsimp only
      have h2 : aget (upperLoop n j a i) (i * n + k) = aget a (i * n + k) := by
        apply upperLoop_unchanged
        intro i' hi' e
        exact absurd (flat_inj (by omega) hj e).2 (by omega)
      have h3 : ∀ v : ℚ, aget ((upperLoop n j a i).setD (i * n + j) v) (k * n + j)
          = aget (upperLoop n j a i) (k * n + j) := by
        intro v
        apply aget_setD_ne
        intro e; exact absurd (flat_inj hj hj e).1 (by omega)
      rw [h2, h3]

theorem lowerLoop_succ (n j : Nat) (s : LowerState) (c : Nat) :
    lowerLoop n j s (c + 1) = lowerStep n j (lowerLoop n j s c) (j + c) := rfl

theorem lowerStep_a (n j : Nat) (s : LowerState) (i : Nat) :
    (lowerStep n j s i).a = s.a.setD (i * n + j) (reduceEntry s.a n i j j) := by
  unfold lowerStep
  by_cases h : |reduceEntry s.a n i j j| ≥ s.largest <;> simp [h]

theorem lowerLoop_a_congr (n j : Nat) (s s' : LowerState) (h : s.a = s'.a) (c : Nat) :
    (lowerLoop n j s c).a = (lowerLoop n j s' c).a := by
  induction c with
  | zero => exact h
  | succ c ih =>
    unfold lowerLoop lowerStep
    rw [ih]
    by_cases h1 : |reduceEntry (lowerLoop n j s' c).a n (j + c) j j| ≥ (lowerLoop n j s c).largest <;>
      by_cases h2 : |reduceEntry (lowerLoop n j s' c).a n (j + c) j j| ≥ (lowerLoop n j s' c).largest <;>
      simp [h1, h2]

theorem size_lowerLoop (n j : Nat) (s : LowerState) (c : Nat) :
    (lowerLoop n j s c).a.size = s.a.size := by
  induction c with
  | zero => rfl
  | succ c ih =>
    unfold lowerLoop lowerStep
    by_cases h1 : |reduceEntry (lowerLoop n j s c).a n (j + c) j j| ≥ (lowerLoop n j s c).largest <;>
      simp [h1, Array.size_setD, ih]

theorem lowerLoop_unchanged (n j : Nat) (s : LowerState) (c : Nat) {p : Nat}
    (hp : ∀ i, j ≤ i → i < j + c → p ≠ i * n + j) :
    aget (lowerLoop n j s c).a p = aget s.a p := by
  induction c with
  | zero => rfl
  | succ c ih =>
    have step : (lowerLoop n j s (c+1)).a
        = (lowerLoop n j s c).a.setD ((j + c) * n + j) (reduceEntry (lowerLoop n j s c).a n (j + c) j j) := by
      rw [lowerLoop_succ, lowerStep_a]
    rw [step, aget_setD_ne _ _ (Ne.symm (hp (j + c) (by omega) (by omega)))]
    exact ih (fun i h1 h2 => hp i h1 (by omega))

theorem lowerLoop_reduce {n j : Nat} (s : LowerState) (hj : j < n) {c i : Nat} (hic : j + c ≤ i) :
    reduceEntry (lowerLoop n j s c).a n i j j = reduceEntry s.a n i j j := by
  unfold reduceEntry
  have h1 : aget (lowerLoop n j s c).a (i * n + j) = aget s.a (i * n + j) := by
    apply lowerLoop_unchanged
    intro i' hi1 hi2 e
    exact absurd (flat_inj hj hj e).1 (by omega)
  rw [h1]
  congr 1
  apply sumTo_congr
  intro k hk
  have h2 : aget (lowerLoop n j s c).a (i * n + k) = aget s.a (i * n + k) := by
    apply lowerLoop_unchanged
    intro i' hi1 hi2 e
    exact absurd (flat_inj (by omega) hj e).2 (by omega)
  have h3 : aget (lowerLoop n j s c).a (k * n + j) = aget s.a (k * n + j) := by
    apply lowerLoop_unchanged
    intro i' hi1 hi2 e
    exact absurd (flat_inj hj hj e).1 (by omega)
  rw [h2, h3]

end MatrixSolver

namespace MatrixSolver

theorem lowerLoop_entry {n j : Nat} (s : LowerState) (hsz : s.a.size = n * n) (hj : j < n)
    {c : Nat} (hcn : j + c ≤ n) {i : Nat} (hi1 : j ≤ i) (hi2 : i < j + c) :
    aget (lowerLoop n j s c).a (i * n + j) = reduceEntry s.a n i j j := by
  induction c with
  | zero => omega
  | succ c ih =>
    have step : (lowerLoop n j s (c + 1)).a
        = (lowerLoop n j s c).a.setD ((j + c) * n + j) (reduceEntry (lowerLoop n j s c).a n (j + c) j j) := by
      rw [lowerLoop_succ, lowerStep_a]
    rw [step]
    rcases Nat.lt_or_ge i (j + c) with hlt | hge
    · have hne : (j + c) * n + j ≠ i * n + j := by
        intro e; exact absurd (flat_inj hj hj e).1 (by omega)
      rw [aget_setD_ne _ _ hne]
      exact ih (by omega) hlt
    · have hie : i = j + c := by omega
      subst hie
      have hb : (j + c) * n + j < (lowerLoop n j s c).a.size := by
        rw [size_lowerLoop, hsz]
        calc (j + c) * n + j < (j + c) * n + n := by omega
          _ = (j + c + 1) * n := by ring
          _ ≤ n * n := Nat.mul_le_mul_right n (by omega)
      rw [aget_setD_self _ _ hb, lowerLoop_reduce s hj (by omega)]

theorem lowerLoop_pivot {n j : Nat} (s0 : Array ℚ) (hj : j < n)
    {c : Nat} (hc : 0 < c) :
    ∃ r : Nat, (lowerLoop n j ⟨s0, 0, -1⟩ c).largestRow = (r : ℤ) ∧ j ≤ r ∧ r < j + c
      ∧ (lowerLoop n j ⟨s0, 0, -1⟩ c).largest = |lval s0 n j r|
      ∧ (∀ i, j ≤ i → i < j + c → |lval s0 n j i| ≤ |lval s0 n j r|)
      ∧ (∀ i, j ≤ i → i < j + c → |lval s0 n j i| = |lval s0 n j r| → i ≤ r) := by
  induction c with
  | zero => omega
  | succ c ih =>
    rcases Nat.eq_zero_or_pos c with rfl | hc0
    · -- first iteration i = j: the comparison |q| ≥ 0 always registers
      refine ⟨j, ?_⟩
      have e : lowerLoop n j ⟨s0, 0, -1⟩ 1 = lowerStep n j ⟨s0, 0, -1⟩ (j + 0) := rfl
      rw [e]
      unfold lowerStep
      rw [if_pos (by simpa using abs_nonneg (reduceEntry s0 n (j + 0) j j))]
      refine ⟨by simp, le_refl j, by omega, ?_, ?_, ?_⟩
      · simp [lval]
      · intro i h1 h2
        have : i = j := by omega
        simp [this]
      · intro i h1 h2 _
        omega
    · obtain ⟨r, hrow, hr1, hr2, hlargest, hmax, htie⟩ := ih hc0
      have hq : reduceEntry (lowerLoop n j ⟨s0, 0, -1⟩ c).a n (j + c) j j
          = lval s0 n j (j + c) := lowerLoop_reduce _ hj (le_refl _)
      rw [lowerLoop_succ]
      unfold lowerStep
      by_cases hcmp : |reduceEntry (lowerLoop n j ⟨s0, 0, -1⟩ c).a n (j + c) j j|
          ≥ (lowerLoop n j ⟨s0, 0, -1⟩ c).largest
      · rw [if_pos hcmp]
        refine ⟨j + c, by simp, by omega, by omega, by simp [hq], ?_, ?_⟩
        · intro i h1 h2
          rcases Nat.lt_or_ge i (j + c) with hlt | hge
          · calc |lval s0 n j i| ≤ |lval s0 n j r| := hmax i h1 hlt
              _ ≤ |lval s0 n j (j + c)| := by
                  rw [hq, hlargest] at hcmp
                  exact hcmp
          · have : i = j + c := by omega
            simp [this]
        · intro i h1 h2 _
          omega
      · rw [if_neg hcmp]
        refine ⟨r, by simp [hrow], hr1, by omega, by simp [hlargest], ?_, ?_⟩
        · intro i h1 h2
          rcases Nat.lt_or_ge i (j + c) with hlt | hge
          · exact hmax i h1 hlt
          · have hie : i = j + c := by omega
            subst hie
            rw [hq, hlargest] at hcmp
            exact le_of_lt (lt_of_not_ge hcmp)
        · intro i h1 h2 he
          rcases Nat.lt_or_ge i (j + c) with hlt | hge
          · exact htie i h1 hlt he
          · have hie : i = j + c := by omega
            subst hie
            rw [hq, hlargest] at hcmp
            exact absurd (le_of_eq he.symm) hcmp

end MatrixSolver

namespace MatrixSolver

theorem swapRows_succ (n r1 r2 : Nat) (a : Array ℚ) (k : Nat) :
    swapRows n r1 r2 a (k + 1)
      = ((swapRows n r1 r2 a k).setD (r1 * n + k) (aget (swapRows n r1 r2 a k) (r2 * n + k))).setD
          (r2 * n + k) (aget (swapRows n r1 r2 a k) (r1 * n + k)) := rfl

theorem size_swapRows (n r1 r2 : Nat) (a : Array ℚ) (c : Nat) :
    (swapRows n r1 r2 a c).size = a.size := by
  induction c with
  | zero => rfl
  | succ c ih => rw [swapRows_succ, Array.size_setD, Array.size_setD, ih]

theorem aget_swapRows_other (n r1 r2 : Nat) (a : Array ℚ) (c : Nat) {p : Nat}
    (hp : ∀ k < c, p ≠ r1 * n + k ∧ p ≠ r2 * n + k) :
    aget (swapRows n r1 r2 a c) p = aget a p := by
  induction c with
  | zero => rfl
  | succ c ih =>
    rw [swapRows_succ,
      aget_setD_ne _ _ (Ne.symm (hp c (Nat.lt_succ_self c)).2),
      aget_setD_ne _ _ (Ne.symm (hp c (Nat.lt_succ_self c)).1)]
    exact ih (fun k hk => hp k (Nat.lt_succ_of_lt hk))

theorem aget_swapRows_left {n r1 r2 : Nat} (a : Array ℚ) (ha : a.size = n * n)
    (h12 : r1 ≠ r2) (hr1 : r1 < n) (hr2 : r2 < n) {c : Nat} (hc : c ≤ n)
    {k : Nat} (hk : k < c) :
    aget (swapRows n r1 r2 a c) (r1 * n + k) = aget a (r2 * n + k) := by
  induction c with
  | zero => omega
  | succ c ih =>
    rw [swapRows_succ]
    rcases Nat.lt_or_ge k c with hlt | hge
    · have h1 : r2 * n + c ≠ r1 * n + k := by
        intro e; exact absurd (flat_inj (by omega) (by omega) e).1 h12.symm
      have h2 : r1 * n + c ≠ r1 * n + k := by
        intro e; exact absurd (flat_inj (by omega) (by omega) e).2 (by omega)
      rw [aget_setD_ne _ _ h1, aget_setD_ne _ _ h2]
      exact ih (by omega) hlt
    · have hkc : k = c := by omega
      subst hkc
      have h1 : r2 * n + k ≠ r1 * n + k := by
        intro e; exact absurd (flat_inj (by omega) (by omega) e).1 h12.symm
      have hb : r1 * n + k < (swapRows n r1 r2 a k).size := by
        rw [size_swapRows, ha]
        calc r1 * n + k < r1 * n + n := by omega
          _ = (r1 + 1) * n := by ring
          _ ≤ n * n := Nat.mul_le_mul_right n hr1
      rw [aget_setD_ne _ _ h1, aget_setD_self _ _ hb]
      apply aget_swapRows_other
      intro k' hk'
      constructor
      · intro e; exact absurd (flat_inj (by omega) (by omega) e).1 h12.symm
      · intro e; exact absurd (flat_inj (by omega) (by omega) e).2 (by omega)

theorem aget_swapRows_right {n r1 r2 : Nat} (a : Array ℚ) (ha : a.size = n * n)
    (h12 : r1 ≠ r2) (hr1 : r1 < n) (hr2 : r2 < n) {c : Nat} (hc : c ≤ n)
    {k : Nat} (hk : k < c) :
    aget (swapRows n r1 r2 a c) (r2 * n + k) = aget a (r1 * n + k) := by
  induction c with
  | zero => omega
  | succ c ih =>
    rw [swapRows_succ]
    rcases Nat.lt_or_ge k c with hlt | hge
    · have h1 : r2 * n + c ≠ r2 * n + k := by
        intro e; exact absurd (flat_inj (by omega) (by omega) e).2 (by omega)
      have h2 : r1 * n + c ≠ r2 * n + k := by
        intro e; exact absurd (flat_inj (by omega) (by omega) e).1 h12
      rw [aget_setD_ne _ _ h1, aget_setD_ne _ _ h2]
      exact ih (by omega) hlt
    · have hkc : k = c := by omega
      subst hkc
      have hb : r2 * n + k < ((swapRows n r1 r2 a k).setD (r1 * n + k)
          (aget (swapRows n r1 r2 a k) (r2 * n + k))).size := by
        rw [Array.size_setD, size_swapRows, ha]
        calc r2 * n + k < r2 * n + n := by omega
          _ = (r2 + 1) * n := by ring
          _ ≤ n * n := Nat.mul_le_mul_right n hr2
      rw [aget_setD_self _ _ hb]
      apply aget_swapRows_other
      intro k' hk'
      constructor
      · intro e; exact absurd (flat_inj (by omega) (by omega) e).2 (by omega)
      · intro e; exact absurd (flat_inj (by omega) (by omega) e).1 h12

theorem aget_swapRows (n : Nat) {r1 r2 : Nat} (a : Array ℚ) (ha : a.size = n * n)
    (h12 : r1 ≠ r2) (hr1 : r1 < n) (hr2 : r2 < n) {i k : Nat} (hi : i < n) (hk : k < n) :
    aget (swapRows n r1 r2 a n) (i * n + k) = aget a (swapFun id r1 r2 i * n + k) := by
  unfold swapFun
  rcases eq_or_ne i r1 with rfl | h1
  · rw [if_pos rfl]
    exact aget_swapRows_left a ha h12 hr1 hr2 (le_refl n) hk
  · rcases eq_or_ne i r2 with rfl | h2
    · rw [if_neg h1, if_pos rfl]
      exact aget_swapRows_right a ha h12 hr1 hr2 (le_refl n) hk
    · rw [if_neg h1, if_neg h2]
      apply aget_swapRows_other
      intro k' hk'
      constructor
      · intro e; exact absurd (flat_inj (by omega) (by omega) e).1 h1
      · intro e; exact absurd (flat_inj (by omega) (by omega) e).1 h2

theorem scaleLoop_succ (n j : Nat) (mult : ℚ) (a : Array ℚ) (c : Nat) :
    scaleLoop n j mult a (c + 1)
      = (scaleLoop n j mult a c).setD ((j + 1 + c) * n + j)
          (aget (scaleLoop n j mult a c) ((j + 1 + c) * n + j) * mult) := rfl

theorem size_scaleLoop (n j : Nat) (mult : ℚ) (a : Array ℚ) (c : Nat) :
    (scaleLoop n j mult a c).size = a.size := by
  induction c with
  | zero => rfl
  | succ c ih => rw [scaleLoop_succ, Array.size_setD, ih]

theorem aget_scaleLoop_other (n j : Nat) (mult : ℚ) (a : Array ℚ) (c : Nat) {p : Nat}
    (hp : ∀ t < c, p ≠ (j + 1 + t) * n + j) :
    aget (scaleLoop n j mult a c) p = aget a p := by
  induction c with
  | zero => rfl
  | succ c ih =>
    rw [scaleLoop_succ, aget_setD_ne _ _ (Ne.symm (hp c (Nat.lt_succ_self c)))]
    exact ih (fun t ht => hp t (Nat.lt_succ_of_lt ht))

theorem aget_scaleLoop_hit {n j : Nat} (mult : ℚ) (a : Array ℚ) (ha : a.size = n * n)
    (hj : j < n) {c : Nat} (hcn : j + 1 + c ≤ n) {i : Nat} (hi1 : j + 1 ≤ i) (hi2 : i < j + 1 + c) :
    aget (scaleLoop n j mult a c) (i * n + j) = aget a (i * n + j) * mult := by
  induction c with
  | zero => omega
  | succ c ih =>
    rw [scaleLoop_succ]
    rcases Nat.lt_or_ge i (j + 1 + c) with hlt | hge
    · have h1 : (j + 1 + c) * n + j ≠ i * n + j := by
        intro e; exact absurd (flat_inj hj hj e).1 (by omega)
      rw [aget_setD_ne _ _ h1]
      exact ih (by omega) hlt
    · have hie : i = j + 1 + c := by omega
      subst hie
      have hb : (j + 1 + c) * n + j < (scaleLoop n j mult a c).size := by
        rw [size_scaleLoop, ha]
        calc (j + 1 + c) * n + j < (j + 1 + c) * n + n := by omega
          _ = (j + 1 + c + 1) * n := by ring
          _ ≤ n * n := Nat.mul_le_mul_right n (by omega)
      rw [aget_setD_self _ _ hb]
      congr 1
      apply aget_scaleLoop_other
      intro t ht e
      exact absurd (flat_inj hj hj e).1 (by omega)

end MatrixSolver

namespace MatrixSolver

theorem factorColumn_eq (n j : Nat) (a : Array ℚ) (ip : Array ℤ) :
    factorColumn n j a ip =
      if (j : ℤ) = (lowerLoop n j ⟨upperLoop n j a j, 0, -1⟩ (n - j)).largestRow then
        factorColPost n j (lowerLoop n j ⟨upperLoop n j a j, 0, -1⟩ (n - j)).a ip
          (lowerLoop n j ⟨upperLoop n j a j, 0, -1⟩ (n - j)).largestRow
      else if (lowerLoop n j ⟨upperLoop n j a j, 0, -1⟩ (n - j)).largestRow = -1 then
        .error ⟨j, (lowerLoop n j ⟨upperLoop n j a j, 0, -1⟩ (n - j)).a, ip⟩
      else
        factorColPost n j
          (swapRows n (lowerLoop n j ⟨upperLoop n j a j, 0, -1⟩ (n - j)).largestRow.toNat j
            (lowerLoop n j ⟨upperLoop n j a j, 0, -1⟩ (n - j)).a n) ip
          (lowerLoop n j ⟨upperLoop n j a j, 0, -1⟩ (n - j)).largestRow := rfl

theorem factorColPost_eq (n j : Nat) (a : Array ℚ) (ip : Array ℤ) (lr : ℤ) :
    factorColPost n j a ip lr =
      if aget a (j * n + j) = 0 then .error ⟨j, a, ip.setD j lr⟩
      else if j ≠ n - 1 then
        .ok (scaleLoop n j (1 / aget a (j * n + j)) a (n - (j + 1)), ip.setD j lr)
      else .ok (a, ip.setD j lr) := rfl

theorem factorColPost_error {n j : Nat} {a : Array ℚ} {ip : Array ℤ} {lr : ℤ} {out : FactorOut}
    (h : factorColPost n j a ip lr = .error out) :
    out = ⟨j, a, ip.setD j lr⟩ ∧ aget a (j * n + j) = 0 := by
  rw [factorColPost_eq] at h
  by_cases hd : aget a (j * n + j) = 0
  · rw [if_pos hd] at h
    exact ⟨(Except.error.injEq _ _).mp h |>.symm, hd⟩
  · rw [if_neg hd] at h
    by_cases hl : j ≠ n - 1 <;> simp [hl] at h

theorem factorColPost_ok {n j : Nat} {a : Array ℚ} {ip : Array ℤ} {lr : ℤ}
    {a' : Array ℚ} {ip' : Array ℤ}
    (h : factorColPost n j a ip lr = .ok (a', ip')) :
    ip' = ip.setD j lr ∧ aget a (j * n + j) ≠ 0
      ∧ ((j ≠ n - 1 ∧ a' = scaleLoop n j (1 / aget a (j * n + j)) a (n - (j + 1)))
          ∨ (j = n - 1 ∧ a' = a)) := by
  rw [factorColPost_eq] at h
  by_cases hd : aget a (j * n + j) = 0
  · rw [if_pos hd] at h
    exact absurd h (by simp)
  · rw [if_neg hd] at h
    by_cases hl : j ≠ n - 1
    · rw [if_pos hl] at h
      obtain ⟨h1, h2⟩ := Prod.mk.injEq .. ▸ (Except.ok.injEq _ _).mp h
      exact ⟨h2.symm, hd, Or.inl ⟨hl, h1.symm⟩⟩
    · rw [if_neg hl] at h
      obtain ⟨h1, h2⟩ := Prod.mk.injEq .. ▸ (Except.ok.injEq _ _).mp h
      exact ⟨h2.symm, hd, Or.inr ⟨not_ne_iff.mp hl, h1.symm⟩⟩

end MatrixSolver

namespace MatrixSolver

theorem size_factorColumn_post {n j : Nat} {a : Array ℚ} {ip : Array ℤ}
    {a' : Array ℚ} {ip' : Array ℤ} (h : factorColumn n j a ip = .ok (a', ip')) :
    a'.size = a.size ∧ ip'.size = ip.size := by
  rw [factorColumn_eq] at h
  by_cases h1 : (j : ℤ) = (lowerLoop n j ⟨upperLoop n j a j, 0, -1⟩ (n - j)).largestRow
  · rw [if_pos h1] at h
    obtain ⟨hip, _, hcase⟩ := factorColPost_ok h
    constructor
    · rcases hcase with ⟨_, ha'⟩ | ⟨_, ha'⟩ <;>
        rw [ha'] <;> simp [size_scaleLoop, size_lowerLoop, size_upperLoop]
    · rw [hip]; simp
  · rw [if_neg h1] at h
    by_cases h2 : (lowerLoop n j ⟨upperLoop n j a j, 0, -1⟩ (n - j)).largestRow = -1
    · rw [if_pos h2] at h; exact absurd h (by simp)
    · rw [if_neg h2] at h
      obtain ⟨hip, _, hcase⟩ := factorColPost_ok h
      constructor
      · rcases hcase with ⟨_, ha'⟩ | ⟨_, ha'⟩ <;>
          rw [ha'] <;> simp [size_scaleLoop, size_swapRows, size_lowerLoop, size_upperLoop]
      · rw [hip]; simp

theorem factorColumn_ok {n j : Nat} {a : Array ℚ} {ip : Array ℤ}
    {a' : Array ℚ} {ip' : Array ℤ}
    (ha : a.size = n * n) (hj : j < n)
    (h : factorColumn n j a ip = .ok (a', ip')) :
    ∃ r : Nat, j ≤ r ∧ r < n
      ∧ (lowerLoop n j ⟨upperLoop n j a j, 0, -1⟩ (n - j)).largestRow = (r : ℤ)
      ∧ ip' = ip.setD j ((r : Nat) : ℤ)
      ∧ aget a' (j * n + j) ≠ 0
      ∧ aget a' (j * n + j) = lval (upperLoop n j a j) n j r
      ∧ (∀ q k, q < j → k < n → k ≠ j → aget a' (q * n + k) = aget a (q * n + k)) := by
  have ha1 : (upperLoop n j a j).size = n * n := by rw [size_upperLoop, ha]
  obtain ⟨r, hrow, hr1, hr2, _, _, _⟩ :=
    lowerLoop_pivot (upperLoop n j a j) hj (c := n - j) (by omega)
  refine ⟨r, hr1, by omega, hrow, ?_⟩
  rw [factorColumn_eq] at h
  set s := lowerLoop n j ⟨upperLoop n j a j, 0, -1⟩ (n - j) with hs
  have hsa_size : s.a.size = n * n := by rw [hs, size_lowerLoop]; exact ha1
  have hsa_other : ∀ q k, q < j → k < n → k ≠ j → aget s.a (q * n + k) = aget a (q * n + k) := by
    intro q k hq hk hkj
    rw [hs]
    rw [lowerLoop_unchanged _ _ _ _ (fun i h1 h2 e => absurd (flat_inj hk hj e).2 hkj)]
    exact upperLoop_unchanged _ _ _ _ (fun i hi e => absurd (flat_inj hk hj e).2 hkj)
  have hsaj : aget s.a (j * n + j) = lval (upperLoop n j a j) n j j := by
    rw [hs]
    exact lowerLoop_entry _ ha1 hj (by omega) (le_refl j) (by omega)
  have hsar2 : aget s.a (r * n + j) = lval (upperLoop n j a j) n j r := by
    rw [hs]
    exact lowerLoop_entry _ ha1 hj (by omega) hr1 hr2
  by_cases h1 : (j : ℤ) = s.largestRow
  · rw [if_pos h1] at h
    obtain ⟨hip, hd, hcase⟩ := factorColPost_ok h
    have hrj : r = j := by
      have h3 : (j : ℤ) = (r : ℤ) := h1.trans hrow
      exact_mod_cast h3.symm
    have hdval : ∀ a2, (a2 = scaleLoop n j (1 / aget s.a (j * n + j)) s.a (n - (j + 1)) ∨ a2 = s.a) →
        aget a2 (j * n + j) = lval (upperLoop n j a j) n j r := by
      intro a2 hc
      rcases hc with ha2 | ha2
      · rw [ha2, aget_scaleLoop_other _ _ _ _ _
          (fun t ht e => absurd (flat_inj hj hj e).1 (by omega))]
        rw [hsaj, hrj]
      · rw [ha2, hsaj, hrj]
    refine ⟨by rw [hip, ← hrow, ← h1], ?_, ?_, ?_⟩
    · -- diagonal entry survives the (possible) scaling
      rcases hcase with ⟨hl, ha'⟩ | ⟨hl, ha'⟩
      · rw [ha', aget_scaleLoop_other _ _ _ _ _
          (fun t ht e => absurd (flat_inj hj hj e).1 (by omega))]
        exact hd
      · rw [ha']; exact hd
    · rcases hcase with ⟨hl, ha'⟩ | ⟨hl, ha'⟩
      · exact hdval a' (Or.inl ha')
      · exact hdval a' (Or.inr ha')
    · intro q k hq hk hkj
      rcases hcase with ⟨hl, ha'⟩ | ⟨hl, ha'⟩
      · rw [ha', aget_scaleLoop_other _ _ _ _ _
          (fun t ht e => absurd (flat_inj hk hj e).1 (by omega))]
        exact hsa_other q k hq hk hkj
      · rw [ha']; exact hsa_other q k hq hk hkj
  · rw [if_neg h1] at h
    have h2 : ¬ s.largestRow = -1 := by rw [hrow]; omega
    rw [if_neg h2] at h
    obtain ⟨hip, hd, hcase⟩ := factorColPost_ok h
    have hrj : r ≠ j := by
      intro e; apply h1; rw [hrow, e]
    have htn : s.largestRow.toNat = r := by rw [hrow]; simp
    have hswap_size : (swapRows n s.largestRow.toNat j s.a n).size = n * n := by
      rw [size_swapRows]; exact hsa_size
    have hswap_other : ∀ q k, q < j → k < n → k ≠ j →
        aget (swapRows n s.largestRow.toNat j s.a n) (q * n + k) = aget a (q * n + k) := by
      intro q k hq hk hkj
      rw [htn]
      rw [aget_swapRows_other n r j s.a n (p := q * n + k) ?_]
      · exact hsa_other q k hq hk hkj
      · intro k' hk'
        constructor
        · intro e
          exact absurd (flat_inj hk hk' e).1 (by omega)
        · intro e
          exact absurd (flat_inj hk hk' e).1 (by omega)
    have hrj : r ≠ j := by
      intro e; apply h1; rw [hrow, e]
    have hdiagswap : aget (swapRows n s.largestRow.toNat j s.a n) (j * n + j)
        = lval (upperLoop n j a j) n j r := by
      rw [htn, ← hsar2]
      exact aget_swapRows_right s.a hsa_size hrj (by omega) hj (le_refl n) hj
    refine ⟨by rw [hip, hrow], ?_, ?_, ?_⟩
    · rcases hcase with ⟨hl, ha'⟩ | ⟨hl, ha'⟩
      · rw [ha', aget_scaleLoop_other _ _ _ _ _
          (fun t ht e => absurd (flat_inj hj hj e).1 (by omega))]
        exact hd
      · rw [ha']; exact hd
    · rcases hcase with ⟨hl, ha'⟩ | ⟨hl, ha'⟩
      · rw [ha', aget_scaleLoop_other _ _ _ _ _
          (fun t ht e => absurd (flat_inj hj hj e).1 (by omega))]
        exact hdiagswap
      · rw [ha']; exact hdiagswap
    · intro q k hq hk hkj
      rcases hcase with ⟨hl, ha'⟩ | ⟨hl, ha'⟩
      · rw [ha', aget_scaleLoop_other _ _ _ _ _
          (fun t ht e => absurd (flat_inj hk hj e).1 (by omega))]
        exact hswap_other q k hq hk hkj
      · rw [ha']; exact hswap_other q k hq hk hkj

end MatrixSolver

namespace MatrixSolver

theorem factorColumn_error_char {n j : Nat} {a : Array ℚ} {ip : Array ℤ} {out : FactorOut}
    (ha : a.size = n * n) (hj : j < n)
    (h : factorColumn n j a ip = .error out) :
    out.ret = j
      ∧ out.ipvt = ip.setD j (lowerLoop n j ⟨upperLoop n j a j, 0, -1⟩ (n - j)).largestRow
      ∧ aget out.a (j * n + j) = 0
      ∧ (∀ i, j ≤ i → i < n → lval (upperLoop n j a j) n j i = 0) := by
  have ha1 : (upperLoop n j a j).size = n * n := by rw [size_upperLoop, ha]
  obtain ⟨r, hrow, hr1, hr2, hlargest, hmax, _⟩ :=
    lowerLoop_pivot (upperLoop n j a j) hj (c := n - j) (by omega)
  rw [factorColumn_eq] at h
  set s := lowerLoop n j ⟨upperLoop n j a j, 0, -1⟩ (n - j) with hs
  have hsa_size : s.a.size = n * n := by rw [hs, size_lowerLoop]; exact ha1
  have hsar : aget s.a (r * n + j) = lval (upperLoop n j a j) n j r := by
    rw [hs]
    exact lowerLoop_entry _ ha1 hj (by omega) hr1 hr2
  have hallzero : lval (upperLoop n j a j) n j r = 0 →
      ∀ i, j ≤ i → i < n → lval (upperLoop n j a j) n j i = 0 := by
    intro h0 i h1 h2
    have := hmax i h1 (by omega)
    rw [h0] at this
    simpa using abs_nonpos_iff.mp (by simpa using this)
  by_cases h1 : (j : ℤ) = s.largestRow
  · rw [if_pos h1] at h
    obtain ⟨hout, hd⟩ := factorColPost_error h
    have hrj : r = j := by
      have h3 : (j : ℤ) = (r : ℤ) := h1.trans hrow
      exact_mod_cast h3.symm
    subst hrj
    rw [hout]
    refine ⟨rfl, rfl, hd, hallzero ?_⟩
    rw [← hsar]
    exact hd
  · rw [if_neg h1] at h
    have h2 : ¬ s.largestRow = -1 := by rw [hrow]; omega
    rw [if_neg h2] at h
    obtain ⟨hout, hd⟩ := factorColPost_error h
    have htn : s.largestRow.toNat = r := by rw [hrow]; simp
    have hrj : r ≠ j := by
      intro e; apply h1; rw [hrow, e]
    have hdval : aget (swapRows n s.largestRow.toNat j s.a n) (j * n + j)
        = aget s.a (r * n + j) := by
      rw [htn]
      exact aget_swapRows_right s.a hsa_size hrj (by omega) hj (le_refl n) hj
    rw [hout]
    refine ⟨rfl, rfl, hd, hallzero ?_⟩
    rw [← hsar, ← hdval]
    exact hd

end MatrixSolver

namespace MatrixSolver

theorem iget_eq (a : Array ℤ) (i : Nat) : iget a i = (a.toList[i]?).getD 0 := by
  unfold iget Array.getD
  split
  · next h =>
    rw [Array.get_eq_getElem, Array.getElem_eq_getElem_toList,
        List.getElem?_eq_getElem, Option.getD_some]
  · next h =>
    rw [List.getElem?_eq_none, Option.getD_none]
    rw [← Array.size_eq_length_toList]
    omega

theorem iget_setD (a : Array ℤ) (i j : Nat) (v : ℤ) :
    iget (a.setD i v) j = if i = j ∧ i < a.size then v else iget a j := by
  rw [iget_eq, iget_eq, toList_setD, List.getElem?_set']
  rcases eq_or_ne i j with rfl | hne
  · by_cases hi : i < a.size
    · rw [List.getElem?_eq_getElem (by rw [← Array.size_eq_length_toList]; omega)]
      simp [hi]
    · rw [List.getElem?_eq_none (by rw [← Array.size_eq_length_toList]; omega)]
      simp [hi]
  · simp [hne]

theorem iget_setD_self (a : Array ℤ) {i : Nat} (v : ℤ) (h : i < a.size) :
    iget (a.setD i v) i = v := by
  rw [iget_setD]; simp [h]

theorem iget_setD_ne (a : Array ℤ) {i j : Nat} (v : ℤ) (h : i ≠ j) :
    iget (a.setD i v) j = iget a j := by
  rw [iget_setD]; simp [h]

theorem runCols_zero (n : Nat) (a : Array ℚ) (ip : Array ℤ) (j : Nat) :
    runCols n a ip j 0 = .ok (a, ip) := rfl

theorem runCols_succ (n : Nat) (a : Array ℚ) (ip : Array ℤ) (j c : Nat) :
    runCols n a ip j (c + 1)
      = match factorColumn n j a ip with
        | .error e => .error e
        | .ok (a1, ip1) => runCols n a1 ip1 (j + 1) c := rfl

theorem factorLoop_eq_runCols (n : Nat) (c : Nat) :
    ∀ (a : Array ℚ) (ip : Array ℤ) (j : Nat),
    factorLoop n a ip j c
      = match runCols n a ip j c with
        | .ok (a', ip') => ⟨-1, a', ip'⟩
        | .error out => out := by
  induction c with
  | zero => intro a ip j; rfl
  | succ c ih =>
    intro a ip j
    rw [runCols_succ]
    show (match factorColumn n j a ip with
      | .error out => out
      | .ok (a1, ip1) => factorLoop n a1 ip1 (j + 1) c) = _
    cases h : factorColumn n j a ip with
    | error out => rfl
    | ok p =>
      cases p with
      | mk a1 ip1 => simpa using ih a1 ip1 (j + 1)

theorem runCols_split (n : Nat) (c1 : Nat) :
    ∀ (a : Array ℚ) (ip : Array ℤ) (j c2 : Nat),
    runCols n a ip j (c1 + c2)
      = match runCols n a ip j c1 with
        | .error e => .error e
        | .ok (a1, ip1) => runCols n a1 ip1 (j + c1) c2 := by
  induction c1 with
  | zero => intro a ip j c2; simp [runCols_zero]
  | succ c1 ih =>
    intro a ip j c2
    have e : c1 + 1 + c2 = (c1 + c2) + 1 := by omega
    rw [e, runCols_succ, runCols_succ]
    cases h : factorColumn n j a ip with
    | error out => rfl
    | ok p =>
      cases p with
      | mk a1 ip1 =>
        have e2 : j + (c1 + 1) = (j + 1) + c1 := by omega
        rw [e2]
        exact ih a1 ip1 (j + 1) c2

theorem runCols_final_inv {n : Nat} :
    ∀ {j c : Nat} {a : Array ℚ} {ip : Array ℤ} {a' : Array ℚ} {ip' : Array ℤ},
    a.size = n * n → ip.size = n → j + c ≤ n →
    runCols n a ip j c = .ok (a', ip') →
    a'.size = n * n ∧ ip'.size = n
    ∧ (∀ q, q < j → iget ip' q = iget ip q)
    ∧ (∀ q k, q < j → k < j → aget a' (q * n + k) = aget a (q * n + k))
    ∧ (∀ t, j ≤ t → t < j + c →
        (t : ℤ) ≤ iget ip' t ∧ iget ip' t < (n : ℤ) ∧ aget a' (t * n + t) ≠ 0) := by
  intro j c
  induction c generalizing j with
  | zero =>
    intro a ip a' ip' ha hip hjc h
    rw [runCols_zero] at h
    obtain ⟨h1, h2⟩ := Prod.mk.injEq .. ▸ (Except.ok.injEq _ _).mp h
    subst h1; subst h2
    exact ⟨ha, hip, fun _ _ => rfl, fun _ _ _ _ => rfl, fun t h1 h2 => absurd h2 (by omega)⟩
  | succ c ih =>
    intro a ip a' ip' ha hip hjc h
    rw [runCols_succ] at h
    cases hcol : factorColumn n j a ip with
    | error out => rw [hcol] at h; exact absurd h (by simp)
    | ok p =>
      rw [hcol] at h
      cases p with
      | mk a1 ip1 =>
        have hj : j < n := by omega
        obtain ⟨r, hr1, hr2, hrow, hip1, hdiag, _, habove⟩ := factorColumn_ok ha hj hcol
        obtain ⟨hsa1, hsip1⟩ := size_factorColumn_post hcol
        have ha1 : a1.size = n * n := by rw [hsa1, ha]
        have hip1' : ip1.size = n := by rw [hsip1, hip]
        obtain ⟨hfa, hfip, hpresIp, hpresA, hranges⟩ :=
          ih (j := j + 1) ha1 hip1' (by omega) h
        refine ⟨hfa, hfip, ?_, ?_, ?_⟩
        · intro q hq
          rw [hpresIp q (by omega), hip1, iget_setD_ne _ _ (by omega)]
        · intro q k hq hk
          rw [hpresA q k (by omega) (by omega), habove q k hq (by omega) (by omega)]
        · intro t h1 h2
          rcases Nat.lt_or_ge t (j + 1) with hlt | hge
          · have htj : t = j := by omega
            subst htj
            have hipt : iget ip' t = (r : ℤ) := by
              rw [hpresIp t (by omega), hip1, iget_setD_self _ _ (by rw [hip]; omega)]
            refine ⟨by rw [hipt]; exact_mod_cast hr1, by rw [hipt]; exact_mod_cast hr2, ?_⟩
            rw [hpresA t t (by omega) (by omega)]
            exact hdiag
          · exact hranges t hge (by omega)

end MatrixSolver

namespace MatrixSolver

theorem rowAllZeros_iff (a : Array ℚ) (n i : Nat) (c : Nat) :
    rowAllZeros a n i c = true ↔ ∀ k, k < c → aget a (i * n + k) = 0 := by
  induction c with
  | zero => simp [rowAllZeros]
  | succ c ih =>
    unfold rowAllZeros
    rw [Bool.and_eq_true, ih]
    constructor
    · rintro ⟨h1, h2⟩ k hk
      rcases Nat.lt_succ_iff_lt_or_eq.mp hk with hlt | heq
      · exact h1 k hlt
      · subst heq; exact of_decide_eq_true h2
    · intro h
      exact ⟨fun k hk => h k (Nat.lt_succ_of_lt hk),
        decide_eq_true (h c (Nat.lt_succ_self c))⟩

theorem findZeroRow_some {a : Array ℚ} {n : Nat} :
    ∀ {i c r : Nat}, i ≤ r → r < i + c →
    rowAllZeros a n r n = true →
    (∀ r', i ≤ r' → r' < r → rowAllZeros a n r' n = false) →
    findZeroRow a n i c = some r := by
  intro i c
  induction c generalizing i with
  | zero => intro r h1 h2; omega
  | succ c ih =>
    intro r h1 h2 hz hf
    unfold findZeroRow
    rcases eq_or_ne i r with rfl | hne
    · rw [if_pos hz]
    · rw [if_neg (by rw [hf i (le_refl i) (by omega)]; simp)]
      exact ih (by omega) (by omega) hz (fun r' hr1 hr2 => hf r' (by omega) hr2)

theorem runCols_one (n : Nat) (a : Array ℚ) (ip : Array ℤ) (j : Nat) :
    runCols n a ip j 1 = factorColumn n j a ip := by
  show (match factorColumn n j a ip with
    | Except.error e => (Except.error e : Except FactorOut (Array ℚ × Array ℤ))
    | Except.ok (a1, ip1) => runCols n a1 ip1 (j + 1) 0) = _
  cases h : factorColumn n j a ip with
  | error out => rfl
  | ok p => cases p with
    | mk a1 ip1 => rfl

theorem lu_factor_eq (a : Array ℚ) (n : Nat) (ip : Array ℤ) :
    lu_factor a n ip
      = match findZeroRow a n 0 n with
        | some i => ⟨(i : ℤ), a, ip⟩
        | none => factorLoop n a ip 0 n := rfl

theorem runCols_error {n : Nat} :
    ∀ {c j : Nat} {a : Array ℚ} {ip : Array ℤ} {out : FactorOut},
    runCols n a ip j c = .error out →
    ∃ t a1 ip1, j ≤ t ∧ t < j + c ∧ runCols n a ip j (t - j) = .ok (a1, ip1)
      ∧ factorColumn n t a1 ip1 = .error out := by
  intro c
  induction c with
  | zero => intro j a ip out h; exact absurd h (by simp [runCols_zero])
  | succ c ih =>
    intro j a ip out h
    rw [runCols_succ] at h
    cases hcol : factorColumn n j a ip with
    | error out' =>
      rw [hcol] at h
      have : out' = out := by simpa using h
      subst this
      exact ⟨j, a, ip, le_refl j, by omega, by simp [runCols_zero], hcol⟩
    | ok p =>
      rw [hcol] at h
      cases p with
      | mk a1 ip1 =>
        obtain ⟨t, a2, ip2, ht1, ht2, hrun, herr⟩ := ih h
        refine ⟨t, a2, ip2, by omega, by omega, ?_, herr⟩
        have e : t - j = (t - (j + 1)) + 1 := by omega
        rw [e, runCols_succ, hcol]
        exact hrun

theorem lu_factor_success {a : Array ℚ} {n : Nat} {ip : Array ℤ}
    (ha : a.size = n * n) (hip : ip.size = n)
    (h : (lu_factor a n ip).ret = -1) :
    findZeroRow a n 0 n = none
      ∧ ∃ aF ipF, runCols n a ip 0 n = .ok (aF, ipF)
        ∧ lu_factor a n ip = ⟨-1, aF, ipF⟩ := by
  cases hz : findZeroRow a n 0 n with
  | some i =>
    rw [lu_factor_eq, hz] at h
    have h2 : ((i : Nat) : ℤ) = -1 := h
    omega
  | none =>
    refine ⟨rfl, ?_⟩
    have he : lu_factor a n ip = factorLoop n a ip 0 n := by
      rw [lu_factor_eq, hz]
    cases hrun : runCols n a ip 0 n with
    | ok p =>
      cases p with
      | mk aF ipF =>
        refine ⟨aF, ipF, rfl, ?_⟩
        rw [he, factorLoop_eq_runCols, hrun]
    | error out =>
      exfalso
      obtain ⟨t, a1, ip1, ht1, ht2, hpre, herr⟩ := runCols_error hrun
      obtain ⟨hsa1, _, _, _, _⟩ :=
        runCols_final_inv ha hip (by omega) hpre
      obtain ⟨hret, _, _, _⟩ := factorColumn_error_char hsa1 (by omega) herr
      rw [he, factorLoop_eq_runCols, hrun] at h
      rw [hret] at h
      omega

end MatrixSolver

namespace MatrixSolver

/-- C3 -/
theorem C3_zero_row_precheck (a : Array ℚ) (n : Nat) (ip : Array ℤ) {r : Nat} (hr : r < n)
    (hzero : ∀ k, k < n → aget a (r * n + k) = 0)
    (hfirst : ∀ r', r' < r → ∃ k, k < n ∧ aget a (r' * n + k) ≠ 0) :
    lu_factor a n ip = ⟨(r : ℤ), a, ip⟩ := by
  have hz : rowAllZeros a n r n = true := (rowAllZeros_iff a n r n).mpr hzero
  have hf : ∀ r', 0 ≤ r' → r' < r → rowAllZeros a n r' n = false := by
    intro r' _ hr'
    obtain ⟨k, hk, hne⟩ := hfirst r' hr'
    rcases Bool.eq_false_or_eq_true (rowAllZeros a n r' n) with hb | hb
    · exact absurd ((rowAllZeros_iff a n r' n).mp hb k hk) hne
    · exact hb
  have hsome : findZeroRow a n 0 n = some r :=
    findZeroRow_some (Nat.zero_le r) (by omega) hz hf
  rw [lu_factor_eq, hsome]

/-- C6 -/
theorem C6_pivot_tiebreak (n j : Nat) (a : Array ℚ) (hj : j < n) :
    ∃ r : Nat, (lowerLoop n j ⟨upperLoop n j a j, 0, -1⟩ (n - j)).largestRow = (r : ℤ)
      ∧ j ≤ r ∧ r < n
      ∧ (∀ i, j ≤ i → i < n → |lval (upperLoop n j a j) n j i| ≤ |lval (upperLoop n j a j) n j r|)
      ∧ (∀ i, j ≤ i → i < n →
          |lval (upperLoop n j a j) n j i| = |lval (upperLoop n j a j) n j r| → i ≤ r) := by
  obtain ⟨r, hrow, hr1, hr2, _, hmax, htie⟩ :=
    lowerLoop_pivot (upperLoop n j a j) hj (c := n - j) (by omega)
  exact ⟨r, hrow, hr1, by omega,
    fun i h1 h2 => hmax i h1 (by omega),
    fun i h1 h2 he => htie i h1 (by omega) he⟩

/-- C10 -/
theorem C10_no_candidate_unreachable (n j : Nat) (a : Array ℚ) (ip : Array ℤ)
    (ha : a.size = n * n) (hj : j < n) :
    ((j : ℤ) ≤ (lowerLoop n j ⟨upperLoop n j a j, 0, -1⟩ (n - j)).largestRow
      ∧ (lowerLoop n j ⟨upperLoop n j a j, 0, -1⟩ (n - j)).largestRow < (n : ℤ)
      ∧ (lowerLoop n j ⟨upperLoop n j a j, 0, -1⟩ (n - j)).largestRow ≠ -1)
    ∧ (∀ out, factorColumn n j a ip = .error out →
        out.ret = (j : ℤ) ∧ aget out.a (j * n + j) = 0) := by
  obtain ⟨r, hrow, hr1, hr2, _, _, _⟩ :=
    lowerLoop_pivot (upperLoop n j a j) hj (c := n - j) (by omega)
  refine ⟨⟨by rw [hrow]; exact_mod_cast hr1, by rw [hrow]; exact_mod_cast (by omega : r < n),
    by rw [hrow]; omega⟩, ?_⟩
  intro out herr
  obtain ⟨h1, _, h3, _⟩ := factorColumn_error_char ha hj herr
  exact ⟨by rw [h1], h3⟩

/-- C9 -/
theorem C9_success_invariants (a : Array ℚ) (n : Nat) (ip : Array ℤ)
    (ha : a.size = n * n) (hip : ip.size = n)
    (hsucc : (lu_factor a n ip).ret = -1) :
    ∀ j, j < n →
      (j : ℤ) ≤ iget (lu_factor a n ip).ipvt j
      ∧ iget (lu_factor a n ip).ipvt j < (n : ℤ)
      ∧ (iget (lu_factor a n ip).ipvt j).toNat < n
      ∧ aget (lu_factor a n ip).a (j * n + j) ≠ 0 := by
  obtain ⟨hz, aF, ipF, hrun, hout⟩ := lu_factor_success ha hip hsucc
  obtain ⟨_, _, _, _, hranges⟩ := runCols_final_inv ha hip (by omega) hrun
  intro j hj
  obtain ⟨h1, h2, h3⟩ := hranges j (Nat.zero_le j) (by omega)
  rw [hout]
  refine ⟨h1, h2, ?_, h3⟩
  show (iget ipF j).toNat < n
  omega

/-- C7 -/
theorem C7_ipvt_record (a : Array ℚ) (n : Nat) (ip : Array ℤ)
    (ha : a.size = n * n) (hip : ip.size = n)
    (hsucc : (lu_factor a n ip).ret = -1) (j : Nat) (hj : j < n) :
    ∃ (aj : Array ℚ) (ipj : Array ℤ) (r : Nat),
      runCols n a ip 0 j = .ok (aj, ipj)
      ∧ (lowerLoop n j ⟨upperLoop n j aj j, 0, -1⟩ (n - j)).largestRow = (r : ℤ)
      ∧ iget (lu_factor a n ip).ipvt j = (r : ℤ)
      ∧ ((lowerLoop n j ⟨upperLoop n j aj j, 0, -1⟩ (n - j)).largestRow = (j : ℤ) →
          iget (lu_factor a n ip).ipvt j = (j : ℤ)) := by
  obtain ⟨hz, aF, ipF, hrun, hout⟩ := lu_factor_success ha hip hsucc
  have hsplit1 := runCols_split n j a ip 0 (n - j)
  have e1 : j + (n - j) = n := by omega
  rw [e1] at hsplit1
  rw [hsplit1] at hrun
  cases hpre : runCols n a ip 0 j with
  | error out => rw [hpre] at hrun; exact absurd hrun (by simp)
  | ok p =>
    rw [hpre] at hrun
    cases p with
    | mk aj ipj =>
      obtain ⟨hsaj, hsipj, _, _, _⟩ := runCols_final_inv ha hip (by omega) hpre
      have hrun2 : runCols n aj ipj (0 + j) (n - j) = .ok (aF, ipF) := hrun
      have e2 : n - j = 1 + (n - j - 1) := by omega
      rw [e2, runCols_split n 1 aj ipj (0 + j) (n - j - 1)] at hrun2
      cases hcol : runCols n aj ipj (0 + j) 1 with
      | error out => rw [hcol] at hrun2; exact absurd hrun2 (by simp)
      | ok q =>
        rw [hcol] at hrun2
        cases q with
        | mk a1 ip1 =>
          have hcol' : factorColumn n j aj ipj = .ok (a1, ip1) := by
            rw [← runCols_one]
            rw [show j = 0 + j from by omega]
            exact hcol
          obtain ⟨r, hr1, hr2, hrow, hip1, _, _, _⟩ := factorColumn_ok hsaj hj hcol'
          refine ⟨aj, ipj, r, rfl, hrow, ?_, ?_⟩
          · have hrem := runCols_final_inv (n := n)
              (by rw [(size_factorColumn_post hcol').1, hsaj])
              (by rw [(size_factorColumn_post hcol').2, hsipj])
              (by omega : (0 + j + 1) + (n - j - 1) ≤ n) hrun2
            obtain ⟨_, _, hpres, _, _⟩ := hrem
            rw [hout]
            show iget ipF j = (r : ℤ)
            rw [hpres j (by omega), hip1,
              iget_setD_self _ _ (by rw [hsipj]; omega)]
          · intro hjrow
            rw [hjrow] at hrow
            have : (j : ℤ) = (r : ℤ) := hrow
            have hjr : j = r := by exact_mod_cast this
            subst hjr
            have hrem := runCols_final_inv (n := n)
              (by rw [(size_factorColumn_post hcol').1, hsaj])
              (by rw [(size_factorColumn_post hcol').2, hsipj])
              (by omega : (0 + j + 1) + (n - j - 1) ≤ n) hrun2
            obtain ⟨_, _, hpres, _, _⟩ := hrem
            rw [hout]
            show iget ipF j = (j : ℤ)
            rw [hpres j (by omega), hip1,
              iget_setD_self _ _ (by rw [hsipj]; omega)]

end MatrixSolver

namespace MatrixSolver

/-- C5 amended -/
theorem C5_allzero_candidates (n j : Nat) (a : Array ℚ) (ip : Array ℤ)
    (ha : a.size = n * n) (hj : j < n)
    (hz : ∀ i, j ≤ i → i < n → lval (upperLoop n j a j) n j i = 0) :
    (lowerLoop n j ⟨upperLoop n j a j, 0, -1⟩ (n - j)).largestRow = ((n - 1 : Nat) : ℤ)
    ∧ (lowerLoop n j ⟨upperLoop n j a j, 0, -1⟩ (n - j)).largestRow ≠ -1
    ∧ ∃ out, factorColumn n j a ip = .error out
        ∧ out.ret = (j : ℤ) ∧ aget out.a (j * n + j) = 0 := by
  obtain ⟨r, hrow, hr1, hr2, hlargest, hmax, htie⟩ :=
    lowerLoop_pivot (upperLoop n j a j) hj (c := n - j) (by omega)
  have hrlast : r = n - 1 := by
    have h1 : |lval (upperLoop n j a j) n j (n - 1)| = |lval (upperLoop n j a j) n j r| := by
      rw [hz (n - 1) (by omega) (by omega), hz r hr1 (by omega)]
    have := htie (n - 1) (by omega) (by omega) h1
    omega
  refine ⟨by rw [hrow, hrlast], by rw [hrow]; omega, ?_⟩
  cases h : factorColumn n j a ip with
  | ok p =>
    exfalso
    cases p with
    | mk a' ip' =>
      obtain ⟨r', _, hr2', hrow', _, hdiag, hdval, _⟩ := factorColumn_ok ha hj h
      apply hdiag
      rw [hdval, hz r' (by
        have := hrow.symm.trans hrow'
        have : r = r' := by exact_mod_cast this
        omega) (by omega)]
  | error out =>
    obtain ⟨h1, _, h3, _⟩ := factorColumn_error_char ha hj h
    exact ⟨out, rfl, by rw [h1], h3⟩

end MatrixSolver

namespace MatrixSolver

theorem C3_zero_row_precheck_witness :
    lu_factor #[(1:ℚ), 2, 0, 0] 2 #[(9:ℤ), 9] = ⟨1, #[(1:ℚ), 2, 0, 0], #[(9:ℤ), 9]⟩ :=
  C3_zero_row_precheck #[(1:ℚ), 2, 0, 0] 2 #[(9:ℤ), 9] (by decide)
    (of_decide_eq_true (by with_unfolding_all rfl))
    (of_decide_eq_true (by with_unfolding_all rfl))

theorem C6_pivot_tiebreak_witness :
    ∃ r : Nat, (lowerLoop 2 0 ⟨upperLoop 2 0 #[(2:ℚ), 9, -2, 7] 0, 0, -1⟩ (2 - 0)).largestRow = (r : ℤ)
      ∧ 0 ≤ r ∧ r < 2
      ∧ (∀ i, 0 ≤ i → i < 2 →
          |lval (upperLoop 2 0 #[(2:ℚ), 9, -2, 7] 0) 2 0 i| ≤ |lval (upperLoop 2 0 #[(2:ℚ), 9, -2, 7] 0) 2 0 r|)
      ∧ (∀ i, 0 ≤ i → i < 2 →
          |lval (upperLoop 2 0 #[(2:ℚ), 9, -2, 7] 0) 2 0 i| = |lval (upperLoop 2 0 #[(2:ℚ), 9, -2, 7] 0) 2 0 r| →
          i ≤ r) :=
  C6_pivot_tiebreak 2 0 #[(2:ℚ), 9, -2, 7] (by decide)

theorem C10_no_candidate_unreachable_witness :
    (((0:Nat) : ℤ) ≤ (lowerLoop 2 0 ⟨upperLoop 2 0 #[(1:ℚ), 1, 1, 1] 0, 0, -1⟩ (2 - 0)).largestRow
      ∧ (lowerLoop 2 0 ⟨upperLoop 2 0 #[(1:ℚ), 1, 1, 1] 0, 0, -1⟩ (2 - 0)).largestRow < ((2:Nat) : ℤ)
      ∧ (lowerLoop 2 0 ⟨upperLoop 2 0 #[(1:ℚ), 1, 1, 1] 0, 0, -1⟩ (2 - 0)).largestRow ≠ -1)
    ∧ (∀ out, factorColumn 2 0 #[(1:ℚ), 1, 1, 1] #[(0:ℤ), 0] = .error out →
        out.ret = ((0:Nat) : ℤ) ∧ aget out.a (0 * 2 + 0) = 0) :=
  C10_no_candidate_unreachable 2 0 #[(1:ℚ), 1, 1, 1] #[(0:ℤ), 0] (by decide) (by decide)

theorem C9_success_invariants_witness :
    ((1:Nat) : ℤ) ≤ iget (lu_factor #[(4:ℚ), 3, 6, 3] 2 #[(0:ℤ), 0]).ipvt 1
    ∧ iget (lu_factor #[(4:ℚ), 3, 6, 3] 2 #[(0:ℤ), 0]).ipvt 1 < ((2:Nat) : ℤ)
    ∧ (iget (lu_factor #[(4:ℚ), 3, 6, 3] 2 #[(0:ℤ), 0]).ipvt 1).toNat < 2
    ∧ aget (lu_factor #[(4:ℚ), 3, 6, 3] 2 #[(0:ℤ), 0]).a (1 * 2 + 1) ≠ 0 :=
  C9_success_invariants #[(4:ℚ), 3, 6, 3] 2 #[(0:ℤ), 0] (by decide) (by decide)
    (by with_unfolding_all rfl) 1 (by decide)

theorem C7_ipvt_record_witness :
    ∃ (aj : Array ℚ) (ipj : Array ℤ) (r : Nat),
      runCols 2 #[(4:ℚ), 3, 6, 3] #[(0:ℤ), 0] 0 0 = .ok (aj, ipj)
      ∧ (lowerLoop 2 0 ⟨upperLoop 2 0 aj 0, 0, -1⟩ (2 - 0)).largestRow = (r : ℤ)
      ∧ iget (lu_factor #[(4:ℚ), 3, 6, 3] 2 #[(0:ℤ), 0]).ipvt 0 = (r : ℤ)
      ∧ ((lowerLoop 2 0 ⟨upperLoop 2 0 aj 0, 0, -1⟩ (2 - 0)).largestRow = ((0:Nat) : ℤ) →
          iget (lu_factor #[(4:ℚ), 3, 6, 3] 2 #[(0:ℤ), 0]).ipvt 0 = ((0:Nat) : ℤ)) :=
  C7_ipvt_record #[(4:ℚ), 3, 6, 3] 2 #[(0:ℤ), 0] (by decide) (by decide)
    (by with_unfolding_all rfl) 0 (by decide)

theorem C5_allzero_candidates_witness :
    (lowerLoop 2 1 ⟨upperLoop 2 1 #[(1:ℚ), 1, 1, 1] 1, 0, -1⟩ (2 - 1)).largestRow = ((2 - 1 : Nat) : ℤ)
    ∧ (lowerLoop 2 1 ⟨upperLoop 2 1 #[(1:ℚ), 1, 1, 1] 1, 0, -1⟩ (2 - 1)).largestRow ≠ -1
    ∧ ∃ out, factorColumn 2 1 #[(1:ℚ), 1, 1, 1] #[(1:ℤ), 0] = .error out
        ∧ out.ret = ((1:Nat) : ℤ) ∧ aget out.a (1 * 2 + 1) = 0 :=
  C5_allzero_candidates 2 1 #[(1:ℚ), 1, 1, 1] #[(1:ℤ), 0] (by decide) (by decide)
    (of_decide_eq_true (by with_unfolding_all rfl))

theorem C5_counterexample :
    runCols 2 #[(1:ℚ), 1, 1, 1] #[(0:ℤ), 0] 0 1 = .ok (#[(1:ℚ), 1, 1, 1], #[(1:ℤ), 0])
    ∧ (∀ i, 1 ≤ i → i < 2 → lval (upperLoop 2 1 #[(1:ℚ), 1, 1, 1] 1) 2 1 i = 0)
    ∧ (lowerLoop 2 1 ⟨upperLoop 2 1 #[(1:ℚ), 1, 1, 1] 1, 0, -1⟩ (2 - 1)).largestRow = 1
    ∧ (lowerLoop 2 1 ⟨upperLoop 2 1 #[(1:ℚ), 1, 1, 1] 1, 0, -1⟩ (2 - 1)).largestRow ≠ -1
    ∧ (lu_factor #[(1:ℚ), 1, 1, 1] 2 #[(0:ℤ), 0]).ret = 1 := by
  refine ⟨by with_unfolding_all rfl, of_decide_eq_true (by with_unfolding_all rfl),
    by with_unfolding_all rfl, ?_, by with_unfolding_all rfl⟩
  rw [show (lowerLoop 2 1 ⟨upperLoop 2 1 #[(1:ℚ), 1, 1, 1] 1, 0, -1⟩ (2 - 1)).largestRow = 1 from
    by with_unfolding_all rfl]
  decide

end MatrixSolver


namespace MatrixSolver

theorem laneSum_succ (f g : Nat → ℚ) (p : Nat) :
    laneSum f g (p + 1)
      = ((laneSum f g p).1 + f (2 * p) * g (2 * p),
         (laneSum f g p).2 + f (2 * p + 1) * g (2 * p + 1)) := rfl

theorem laneSum_add (f g : Nat → ℚ) (p : Nat) :
    (laneSum f g p).1 + (laneSum f g p).2 = sumTo (fun k => f k * g k) (2 * p) := by
  induction p with
  | zero => simp [laneSum, sumTo]
  | succ p ih =>
    have e : 2 * (p + 1) = (2 * p + 1) + 1 := by omega
    rw [laneSum_succ, e, sumTo_succ, sumTo_succ, ← ih]
    dsimp only
    ring

theorem simd_split_sum (h : Nat → ℚ) (j : Nat) :
    sumTo h (2 * (j / 2)) + sumTo (fun t => h (2 * (j / 2) + t)) (j - 2 * (j / 2))
      = sumTo h j := by
  rw [← sumTo_add]
  congr 1
  omega

theorem lowerStepSimd_eq (n j : Nat) (s : LowerState) (i : Nat) :
    lowerStepSimd n j s i = lowerStep n j s i := by
  unfold lowerStepSimd lowerStep
  dsimp only
  by_cases hj : 1 < j
  · rw [if_pos hj, laneSum_add]
    have e : aget s.a (i * n + j)
          - sumTo (fun k => aget s.a (i * n + k) * aget s.a (k * n + j)) (2 * (j / 2))
          - sumTo (fun t => aget s.a (i * n + (2 * (j / 2) + t)) * aget s.a ((2 * (j / 2) + t) * n + j))
              (j - 2 * (j / 2))
        = reduceEntry s.a n i j j := by
      unfold reduceEntry
      rw [← simd_split_sum (fun k => aget s.a (i * n + k) * aget s.a (k * n + j)) j]
      ring
    rw [e]
  · rw [if_neg hj]
    rfl

theorem lowerLoopSimd_eq (n j : Nat) (s : LowerState) (c : Nat) :
    lowerLoopSimd n j s c = lowerLoop n j s c := by
  induction c with
  | zero => rfl
  | succ c ih =>
    show lowerStepSimd n j (lowerLoopSimd n j s c) (j + c) = lowerStep n j (lowerLoop n j s c) (j + c)
    rw [ih, lowerStepSimd_eq]

theorem upperLoopSimd_eq (n j : Nat) (a : Array ℚ) (c : Nat) :
    upperLoopSimd n j a c = upperLoop n j a c := by
  induction c with
  | zero => rfl
  | succ i ih =>
    show (upperLoopSimd n j a i).setD (i * n + j) _
        = (upperLoop n j a i).setD (i * n + j) (reduceEntry (upperLoop n j a i) n i j i)
    rw [ih]
    congr 1
    unfold reduceEntry
    by_cases hi : 0 < i
    · rw [if_pos hi]
    · rw [if_neg hi]
      have e : i = 0 := by omega
      subst e
      show aget (upperLoop n j a 0) (0 * n + j) = aget (upperLoop n j a 0) (0 * n + j) - sumTo _ 0
      rw [show sumTo (fun k => aget (upperLoop n j a 0) (0 * n + k) * aget (upperLoop n j a 0) (k * n + j)) 0 = 0 from rfl]
      ring

end MatrixSolver

namespace MatrixSolver

theorem swapRowsSimdPairs_succ (n r1 r2 : Nat) (a : Array ℚ) (p : Nat) :
    swapRowsSimdPairs n r1 r2 a (p + 1)
      = ((((swapRowsSimdPairs n r1 r2 a p).setD (r1 * n + 2 * p)
            (aget (swapRowsSimdPairs n r1 r2 a p) (r2 * n + 2 * p))).setD (r1 * n + (2 * p + 1))
            (aget (swapRowsSimdPairs n r1 r2 a p) (r2 * n + (2 * p + 1)))).setD (r2 * n + 2 * p)
            (aget (swapRowsSimdPairs n r1 r2 a p) (r1 * n + 2 * p))).setD (r2 * n + (2 * p + 1))
            (aget (swapRowsSimdPairs n r1 r2 a p) (r1 * n + (2 * p + 1))) := rfl

theorem pairStep_eq {n r1 r2 : Nat} (h12 : r1 ≠ r2) (X : Array ℚ) {k : Nat} (hk : k + 1 < n) :
    (((X.setD (r1 * n + k) (aget X (r2 * n + k))).setD (r1 * n + (k + 1))
        (aget X (r2 * n + (k + 1)))).setD (r2 * n + k) (aget X (r1 * n + k))).setD
        (r2 * n + (k + 1)) (aget X (r1 * n + (k + 1)))
      = (((X.setD (r1 * n + k) (aget X (r2 * n + k))).setD (r2 * n + k)
            (aget X (r1 * n + k))).setD (r1 * n + (k + 1))
            (aget ((X.setD (r1 * n + k) (aget X (r2 * n + k))).setD (r2 * n + k)
              (aget X (r1 * n + k))) (r2 * n + (k + 1)))).setD (r2 * n + (k + 1))
            (aget ((X.setD (r1 * n + k) (aget X (r2 * n + k))).setD (r2 * n + k)
              (aget X (r1 * n + k))) (r1 * n + (k + 1))) := by
  have hd1 : r1 * n + k ≠ r2 * n + (k + 1) := by
    intro e; exact absurd (flat_inj (by omega) (by omega) e).1 h12
  have hd2 : r2 * n + k ≠ r2 * n + (k + 1) := by
    intro e; exact absurd (flat_inj (by omega) (by omega) e).2 (by omega)
  have hd3 : r1 * n + k ≠ r1 * n + (k + 1) := by
    intro e; exact absurd (flat_inj (by omega) (by omega) e).2 (by omega)
  have hd4 : r2 * n + k ≠ r1 * n + (k + 1) := by
    intro e; exact absurd (flat_inj (by omega) (by omega) e).1 h12.symm
  rw [aget_setD_ne _ _ hd2, aget_setD_ne _ _ hd1, aget_setD_ne _ _ hd4, aget_setD_ne _ _ hd3]
  rw [setD_comm _ _ _ (fun e => hd4 e.symm)]

theorem swapRowsSimdPairs_eq {n r1 r2 : Nat} (h12 : r1 ≠ r2) (a : Array ℚ) :
    ∀ p, 2 * p ≤ n → swapRowsSimdPairs n r1 r2 a p = swapRows n r1 r2 a (2 * p) := by
  intro p
  induction p with
  | zero => intro _; rfl
  | succ p ih =>
    intro hp
    rw [swapRowsSimdPairs_succ, ih (by omega)]
    have e : 2 * (p + 1) = (2 * p + 1) + 1 := by omega
    rw [e, swapRows_succ, swapRows_succ]
    exact pairStep_eq h12 (swapRows n r1 r2 a (2 * p)) (by omega)

theorem swapRowsSimd_eq {n r1 r2 : Nat} (h12 : r1 ≠ r2) (a : Array ℚ) :
    swapRowsSimd n r1 r2 a = swapRows n r1 r2 a n := by
  unfold swapRowsSimd
  dsimp only
  by_cases h : 2 * (n / 2) < n
  · rw [if_pos h, swapRowsSimdPairs_eq h12 a (n / 2) (by omega)]
    rw [show swapRows n r1 r2 a n = swapRows n r1 r2 a (2 * (n / 2) + 1) from by
      rw [show 2 * (n / 2) + 1 = n from by omega]]
    rw [swapRows_succ]
  · rw [if_neg h, swapRowsSimdPairs_eq h12 a (n / 2) (by omega)]
    rw [show 2 * (n / 2) = n from by omega]

end MatrixSolver

namespace MatrixSolver

theorem factorColumnSimd_eq (n j : Nat) (a : Array ℚ) (ip : Array ℤ) :
    factorColumnSimd n j a ip = factorColumn n j a ip := by
  unfold factorColumnSimd
  dsimp only
  rw [factorColumn_eq, upperLoopSimd_eq, lowerLoopSimd_eq]
  set s := lowerLoop n j ⟨upperLoop n j a j, 0, -1⟩ (n - j) with hs
  by_cases h1 : (j : ℤ) = s.largestRow
  · rw [if_pos h1, if_pos h1]
  · rw [if_neg h1, if_neg h1]
    by_cases h2 : s.largestRow = -1
    · rw [if_pos h2, if_pos h2]
    · rw [if_neg h2, if_neg h2]
      have hj : j < n := by
        by_contra hn
        have e : n - j = 0 := by omega
        rw [e] at hs
        exact h2 (by rw [hs]; rfl)
      obtain ⟨r, hrow, hr1, hr2, _, _, _⟩ :=
        lowerLoop_pivot (upperLoop n j a j) hj (c := n - j) (by omega)
      rw [← hs] at hrow
      have hrj : s.largestRow.toNat ≠ j := by
        rw [hrow]
        intro e
        apply h1
        rw [hrow]
        simp at e
        omega
      rw [swapRowsSimd_eq hrj s.a]

theorem factorLoopSimd_eq (n : Nat) (c : Nat) :
    ∀ (a : Array ℚ) (ip : Array ℤ) (j : Nat),
    factorLoopSimd n a ip j c = factorLoop n a ip j c := by
  induction c with
  | zero => intro a ip j; rfl
  | succ c ih =>
    intro a ip j
    show (match factorColumnSimd n j a ip with
      | .error out => out
      | .ok (a1, ip1) => factorLoopSimd n a1 ip1 (j + 1) c)
      = (match factorColumn n j a ip with
      | .error out => out
      | .ok (a1, ip1) => factorLoop n a1 ip1 (j + 1) c)
    rw [factorColumnSimd_eq]
    cases h : factorColumn n j a ip with
    | error out => rfl
    | ok p =>
      cases p with
      | mk a1 ip1 => simpa using ih a1 ip1 (j + 1)

theorem lu_factor_simd_eq (a : Array ℚ) (n : Nat) (ip : Array ℤ) :
    lu_factor_simd a n ip = lu_factor a n ip := by
  unfold lu_factor_simd lu_factor
  cases h : findZeroRow a n 0 n with
  | some i => rfl
  | none => simpa using factorLoopSimd_eq n n a ip 0

theorem forwardLoopSimd_eq (a : Array ℚ) (n : Nat) (ip : Array ℤ) (bi : Nat) (c : Nat) :
    ∀ (b : Array ℚ) (i : Nat),
    forwardLoopSimd a n ip bi b i c = forwardLoop a n ip bi b i c := by
  induction c with
  | zero => intro b i; rfl
  | succ c ih =>
    intro b i
    unfold forwardLoopSimd forwardLoop
    dsimp only
    rw [ih]
    congr 2
    by_cases hl : 2 ≤ i - bi
    · rw [if_pos hl, laneSum_add,
        show (aget b ((iget ip i).toNat)
            - sumTo (fun k => aget a (i * n + (bi + k)) * aget (b.setD ((iget ip i).toNat) (aget b i)) (bi + k))
              (2 * ((i - bi) / 2))
            - sumTo (fun t => aget a (i * n + (bi + (2 * ((i - bi) / 2) + t)))
                * aget (b.setD ((iget ip i).toNat) (aget b i)) (bi + (2 * ((i - bi) / 2) + t)))
              ((i - bi) - 2 * ((i - bi) / 2)))
          = aget b ((iget ip i).toNat)
            - sumTo (fun k => aget a (i * n + (bi + k)) * aget (b.setD ((iget ip i).toNat) (aget b i)) (bi + k))
              (i - bi) from by
        rw [← simd_split_sum
          (fun k => aget a (i * n + (bi + k)) * aget (b.setD ((iget ip i).toNat) (aget b i)) (bi + k))
          (i - bi)]
        ring]
    · rw [if_neg hl]

theorem backLoopSimd_eq (a : Array ℚ) (n : Nat) (c : Nat) :
    ∀ (b : Array ℚ),
    backLoopSimd a n b c = backLoop a n b c := by
  induction c with
  | zero => intro b; rfl
  | succ c ih =>
    intro b
    unfold backLoopSimd backLoop
    dsimp only
    rw [ih]
    congr 2
    by_cases hl : 2 ≤ n - 1 - c
    · rw [if_pos hl, laneSum_add,
        show (aget b c
            - sumTo (fun t => aget a (c * n + (c + 1 + t)) * aget b (c + 1 + t)) (2 * ((n - 1 - c) / 2))
            - sumTo (fun t => aget a (c * n + (c + 1 + (2 * ((n - 1 - c) / 2) + t)))
                * aget b (c + 1 + (2 * ((n - 1 - c) / 2) + t)))
              ((n - 1 - c) - 2 * ((n - 1 - c) / 2)))
          = aget b c
            - sumTo (fun t => aget a (c * n + (c + 1 + t)) * aget b (c + 1 + t)) (n - (c + 1)) from by
        rw [show n - (c + 1) = n - 1 - c from by omega,
          ← simd_split_sum (fun t => aget a (c * n + (c + 1 + t)) * aget b (c + 1 + t)) (n - 1 - c)]
        ring]
    · rw [if_neg hl]

theorem lu_solve_simd_eq (a : Array ℚ) (n : Nat) (ip : Array ℤ) (b : Array ℚ) :
    lu_solve_simd a n ip b = lu_solve a n ip b := by
  unfold lu_solve_simd lu_solve
  dsimp only
  rw [forwardLoopSimd_eq, backLoopSimd_eq]

end MatrixSolver

namespace MatrixSolver

/-- C2: on identical inputs the SIMD build's lu_factor and lu_solve produce
exactly the same outputs as the scalar build — the same return value, final
matrix contents, pivot vector and solution vector — for every n (even or
odd); in the exact-arithmetic model the different summation order of the
two-lane kernels is invisible. -/
theorem C2_simd_matches_scalar (a : Array ℚ) (n : Nat) (ip : Array ℤ) (b : Array ℚ) :
    lu_factor_simd a n ip = lu_factor a n ip
      ∧ lu_solve_simd a n ip b = lu_solve a n ip b :=
  ⟨lu_factor_simd_eq a n ip, lu_solve_simd_eq a n ip b⟩

end MatrixSolver


namespace MatrixSolver

theorem setD_setD_same (a : Array ℚ) (i : Nat) (v w : ℚ) :
    (a.setD i v).setD i w = a.setD i w := by
  apply toList_inj
  rw [toList_setD, toList_setD, toList_setD, List.set_set]

theorem size_exchg (b : Array ℚ) (p1 p2 : Nat) : (exchg b p1 p2).size = b.size := by
  unfold exchg
  simp

theorem permApply_succ (ip : Array ℤ) (b : Array ℚ) (i c : Nat) :
    permApply ip b i (c + 1) = permApply ip (exchg b ((iget ip i).toNat) i) (i + 1) c := rfl

theorem size_permApply (ip : Array ℤ) (c : Nat) :
    ∀ (b : Array ℚ) (i : Nat), (permApply ip b i c).size = b.size := by
  induction c with
  | zero => intro b i; rfl
  | succ c ih =>
    intro b i
    rw [permApply_succ, ih, size_exchg]

theorem permApply_compose (ip : Array ℤ) (c1 : Nat) :
    ∀ (b : Array ℚ) (i c2 : Nat),
    permApply ip (permApply ip b i c1) (i + c1) c2 = permApply ip b i (c1 + c2) := by
  induction c1 with
  | zero => intro b i c2; rw [Nat.add_zero, Nat.zero_add]; rfl
  | succ c1 ih =>
    intro b i c2
    rw [permApply_succ]
    have e1 : i + (c1 + 1) = (i + 1) + c1 := by omega
    have e2 : c1 + 1 + c2 = (c1 + c2) + 1 := by omega
    rw [e1, ih, e2, permApply_succ]

theorem aget_exchg_fst (b : Array ℚ) {p1 p2 : Nat} (h : p1 ≠ p2) (hp1 : p1 < b.size) :
    aget (exchg b p1 p2) p1 = aget b p2 := by
  unfold exchg
  rw [aget_setD_ne _ _ (fun e => h e.symm), aget_setD_self _ _ hp1]

theorem aget_exchg_snd (b : Array ℚ) {p1 p2 : Nat} (hp2 : p2 < b.size) :
    aget (exchg b p1 p2) p2 = aget b p1 := by
  unfold exchg
  rw [aget_setD_self _ _ (by simpa using hp2)]

theorem aget_exchg_other (b : Array ℚ) {p1 p2 q : Nat} (h1 : q ≠ p1) (h2 : q ≠ p2) :
    aget (exchg b p1 p2) q = aget b q := by
  unfold exchg
  rw [aget_setD_ne _ _ (fun e => h2 e.symm), aget_setD_ne _ _ (fun e => h1 e.symm)]

theorem permApply_stable (ip : Array ℤ) (c : Nat) :
    ∀ (b : Array ℚ) (i p : Nat), (∀ q, i ≤ q → q < i + c → q ≤ (iget ip q).toNat) → p < i →
    aget (permApply ip b i c) p = aget b p := by
  induction c with
  | zero => intro b i p _ _; rfl
  | succ c ih =>
    intro b i p hr hp
    rw [permApply_succ, ih _ _ _ (fun q h1 h2 => hr q (by omega) (by omega)) (by omega)]
    exact aget_exchg_other b (by have := hr i (le_refl i) (by omega); omega) (by omega)

theorem permApply_setD_comm (ip : Array ℤ) (c : Nat) :
    ∀ (b : Array ℚ) (i p : Nat) (v : ℚ),
    (∀ q, i ≤ q → q < i + c → q ≤ (iget ip q).toNat) → p < i →
    permApply ip (b.setD p v) i c = (permApply ip b i c).setD p v := by
  induction c with
  | zero => intro b i p v _ _; rfl
  | succ c ih =>
    intro b i p v hr hp
    rw [permApply_succ, permApply_succ]
    have hrow : p ≠ (iget ip i).toNat := by
      have := hr i (le_refl i) (by omega); omega
    have hstep : exchg (b.setD p v) ((iget ip i).toNat) i = (exchg b ((iget ip i).toNat) i).setD p v := by
      unfold exchg
      rw [aget_setD_ne _ _ hrow, aget_setD_ne _ _ (by omega : p ≠ i)]
      rw [setD_comm _ _ _ hrow, setD_comm _ _ _ (by omega : p ≠ i)]
    rw [hstep, ih _ _ _ _ (fun q h1 h2 => hr q (by omega) (by omega)) (by omega)]

end MatrixSolver

namespace MatrixSolver

theorem permLoop_succ (ip : Array ℤ) (b : Array ℚ) (i c : Nat) :
    permLoop ip b i (c + 1)
      = if aget b ((iget ip i).toNat) ≠ 0
        then (exchg b ((iget ip i).toNat) i, i, i + 1)
        else permLoop ip (exchg b ((iget ip i).toNat) i) (i + 1) c := rfl

theorem permLoop_cases (ip : Array ℤ) (c : Nat) :
    ∀ (b : Array ℚ) (i : Nat),
    ((∀ q, i ≤ q → q < i + c →
        aget (permApply ip b i (q - i)) ((iget ip q).toNat) = 0)
      ∧ permLoop ip b i c = (permApply ip b i c, 0, i + c))
    ∨ (∃ m, i ≤ m ∧ m < i + c
        ∧ (∀ q, i ≤ q → q < m → aget (permApply ip b i (q - i)) ((iget ip q).toNat) = 0)
        ∧ aget (permApply ip b i (m - i)) ((iget ip m).toNat) ≠ 0
        ∧ permLoop ip b i c = (permApply ip b i (m - i + 1), m, m + 1)) := by
  induction c with
  | zero =>
    intro b i
    exact Or.inl ⟨fun q h1 h2 => absurd h2 (by omega), rfl⟩
  | succ c ih =>
    intro b i
    by_cases hsw : aget b ((iget ip i).toNat) ≠ 0
    · refine Or.inr ⟨i, le_refl i, by omega, fun q h1 h2 => absurd h2 (by omega), ?_, ?_⟩
      · rw [Nat.sub_self]
        exact hsw
      · rw [permLoop_succ, if_pos hsw, Nat.sub_self]
        rfl
    · have hsw0 : aget b ((iget ip i).toNat) = 0 := by
        by_contra h; exact hsw h
      rcases ih (exchg b ((iget ip i).toNat) i) (i + 1) with ⟨hall, heq⟩ | ⟨m, h1, h2, hz, hnz, heq⟩
      · left
        constructor
        · intro q hq1 hq2
          rcases eq_or_ne q i with rfl | hqi
          · rw [Nat.sub_self]
            exact hsw0
          · have e : q - i = (q - (i + 1)) + 1 := by omega
            rw [e, permApply_succ]
            exact hall q (by omega) (by omega)
        · rw [permLoop_succ, if_neg hsw, heq, ← permApply_succ,
            show i + 1 + c = i + (c + 1) from by omega]
      · right
        refine ⟨m, by omega, by omega, ?_, ?_, ?_⟩
        · intro q hq1 hq2
          rcases eq_or_ne q i with rfl | hqi
          · rw [Nat.sub_self]
            exact hsw0
          · have e : q - i = (q - (i + 1)) + 1 := by omega
            rw [e, permApply_succ]
            exact hz q (by omega) hq2
        · have e : m - i = (m - (i + 1)) + 1 := by omega
          rw [e, permApply_succ]
          exact hnz
        · rw [permLoop_succ, if_neg hsw, heq]
          have e : m - i + 1 = (m - (i + 1) + 1) + 1 := by omega
          rw [e, permApply_succ]
          rfl

end MatrixSolver

namespace MatrixSolver

theorem forwardLoop_succ (a : Array ℚ) (n : Nat) (ip : Array ℤ) (bi : Nat)
    (b : Array ℚ) (i c : Nat) :
    forwardLoop a n ip bi b i (c + 1)
      = forwardLoop a n ip bi
          ((b.setD ((iget ip i).toNat) (aget b i)).setD i
            (aget b ((iget ip i).toNat)
              - sumTo (fun k => aget a (i * n + (bi + k))
                  * aget (b.setD ((iget ip i).toNat) (aget b i)) (bi + k)) (i - bi)))
          (i + 1) c := rfl

theorem pureFwdLoop_succ (a : Array ℚ) (n bi : Nat) (b : Array ℚ) (i c : Nat) :
    pureFwdLoop a n bi b i (c + 1)
      = pureFwdLoop a n bi
          (b.setD i (aget b i
            - sumTo (fun k => aget a (i * n + (bi + k)) * aget b (bi + k)) (i - bi)))
          (i + 1) c := rfl

theorem forwardLoop_perm (a : Array ℚ) (n : Nat) (ip : Array ℤ) (bi : Nat)
    (hr : ∀ q : Nat, q < n → q ≤ (iget ip q).toNat) :
    ∀ (c : Nat) (b : Array ℚ) (i : Nat), b.size = n → i + c ≤ n →
    forwardLoop a n ip bi b i c = pureFwdLoop a n bi (permApply ip b i c) i c := by
  intro c
  induction c with
  | zero => intro b i _ _; rfl
  | succ c ih =>
    intro b i hb hc
    have hrow : i ≤ (iget ip i).toNat := hr i (by omega)
    have hin : i < b.size := by omega
    -- the value b[ipvt[i]] read by the interleaved loop is the fully permuted entry
    have hBi : aget (permApply ip b i (c + 1)) i = aget b ((iget ip i).toNat) := by
      rw [permApply_succ,
        permApply_stable ip c _ _ _ (fun q h1 h2 => hr q (by omega)) (by omega)]
      rcases eq_or_ne ((iget ip i).toNat) i with he | hne
      · rw [he, aget_exchg_snd _ hin]
      · rw [aget_exchg_snd _ hin]
    have hBk : ∀ k, k < i → aget (permApply ip b i (c + 1)) k = aget b k := by
      intro k hk
      rw [permApply_succ,
        permApply_stable ip c _ _ _ (fun q h1 h2 => hr q (by omega)) (by omega)]
      exact aget_exchg_other b (by omega) (by omega)
    rw [forwardLoop_succ, pureFwdLoop_succ]
    have hsum : sumTo (fun k => aget a (i * n + (bi + k))
          * aget (b.setD ((iget ip i).toNat) (aget b i)) (bi + k)) (i - bi)
        = sumTo (fun k => aget a (i * n + (bi + k))
          * aget (permApply ip b i (c + 1)) (bi + k)) (i - bi) := by
      apply sumTo_congr
      intro k hk
      dsimp only
      rw [aget_setD_ne _ _ (by omega : (iget ip i).toNat ≠ bi + k), hBk (bi + k) (by omega)]
    have hstate : permApply ip
          ((b.setD ((iget ip i).toNat) (aget b i)).setD i
            (aget b ((iget ip i).toNat)
              - sumTo (fun k => aget a (i * n + (bi + k))
                  * aget (b.setD ((iget ip i).toNat) (aget b i)) (bi + k)) (i - bi)))
          (i + 1) c
        = (permApply ip b i (c + 1)).setD i
            (aget (permApply ip b i (c + 1)) i
              - sumTo (fun k => aget a (i * n + (bi + k))
                  * aget (permApply ip b i (c + 1)) (bi + k)) (i - bi)) := by
      rw [hsum, hBi]
      set tot := aget b ((iget ip i).toNat)
        - sumTo (fun k => aget a (i * n + (bi + k))
            * aget (permApply ip b i (c + 1)) (bi + k)) (i - bi) with htot
      have hset : (b.setD ((iget ip i).toNat) (aget b i)).setD i tot
          = (exchg b ((iget ip i).toNat) i).setD i tot := by
        unfold exchg
        rw [setD_setD_same]
      rw [hset, permApply_setD_comm ip c _ _ _ _ (fun q h1 h2 => hr q (by omega)) (by omega),
        ← permApply_succ]
    rw [ih _ (i + 1) (by simp [hb]) (by omega), hstate]

end MatrixSolver

namespace MatrixSolver

/-- C8: the permutation phase of lu_solve performs the exchange for every
index exactly once and never undoes one: the interleaved permutation +
forward-substitution phases compute exactly what pure forward substitution
computes on the right-hand side with ALL n exchanges applied, with the
early-stop index bi only truncating the substitution sums; and when every
swapped-in value is zero the permutation loop runs to completion with bi
remaining 0. -/
theorem C8_perm_exchanges (a : Array ℚ) (n : Nat) (ip : Array ℤ) (b : Array ℚ)
    (hb : b.size = n)
    (hr : ∀ q, q < n → q ≤ (iget ip q).toNat) :
    (forwardLoop a n ip (permLoop ip b 0 n).2.1 (permLoop ip b 0 n).1 (permLoop ip b 0 n).2.2
        (n - (permLoop ip b 0 n).2.2)
      = pureFwdLoop a n (permLoop ip b 0 n).2.1 (permApply ip b 0 n) (permLoop ip b 0 n).2.2
        (n - (permLoop ip b 0 n).2.2))
    ∧ ((∀ q, q < n → aget (permApply ip b 0 q) ((iget ip q).toNat) = 0) →
        permLoop ip b 0 n = (permApply ip b 0 n, 0, n)) := by
  rcases permLoop_cases ip n b 0 with ⟨hall, heq⟩ | ⟨m, h1, h2, hz, hnz, heq⟩
  · rw [Nat.zero_add] at heq
    constructor
    · rw [heq]
      dsimp only
      rw [Nat.sub_self]
      rfl
    · intro _
      exact heq
  · rw [show m - 0 + 1 = m + 1 from by omega] at heq
    constructor
    · rw [heq]
      dsimp only
      rw [forwardLoop_perm a n ip m hr (n - (m + 1)) _ (m + 1)
        (by rw [size_permApply, hb]) (by omega)]
      have hcomp := permApply_compose ip (m + 1) b 0 (n - (m + 1))
      rw [show (0 : Nat) + (m + 1) = m + 1 from by omega,
        show m + 1 + (n - (m + 1)) = n from by omega] at hcomp
      rw [hcomp]
    · intro hzero
      exact absurd (hzero m (by omega)) (by simpa using hnz)

end MatrixSolver

namespace MatrixSolver

theorem C8_perm_exchanges_witness :
    (forwardLoop #[(1:ℚ), 0, 0, 1] 2 #[(1:ℤ), 1]
        (permLoop #[(1:ℤ), 1] #[(5:ℚ), 7] 0 2).2.1 (permLoop #[(1:ℤ), 1] #[(5:ℚ), 7] 0 2).1
        (permLoop #[(1:ℤ), 1] #[(5:ℚ), 7] 0 2).2.2 (2 - (permLoop #[(1:ℤ), 1] #[(5:ℚ), 7] 0 2).2.2)
      = pureFwdLoop #[(1:ℚ), 0, 0, 1] 2 (permLoop #[(1:ℤ), 1] #[(5:ℚ), 7] 0 2).2.1
        (permApply #[(1:ℤ), 1] #[(5:ℚ), 7] 0 2) (permLoop #[(1:ℤ), 1] #[(5:ℚ), 7] 0 2).2.2
        (2 - (permLoop #[(1:ℤ), 1] #[(5:ℚ), 7] 0 2).2.2))
    ∧ ((∀ q, q < 2 → aget (permApply #[(1:ℤ), 1] #[(5:ℚ), 7] 0 q) ((iget #[(1:ℤ), 1] q).toNat) = 0) →
        permLoop #[(1:ℤ), 1] #[(5:ℚ), 7] 0 2 = (permApply #[(1:ℤ), 1] #[(5:ℚ), 7] 0 2, 0, 2)) :=
  C8_perm_exchanges #[(1:ℚ), 0, 0, 1] 2 #[(1:ℤ), 1] #[(5:ℚ), 7] (by decide)
    (of_decide_eq_true (by with_unfolding_all rfl))

end MatrixSolver


namespace MatrixSolver

theorem swapFun_self (f : Nat → Nat) (t : Nat) : swapFun f t t = f := by
  funext q
  unfold swapFun
  rcases eq_or_ne q t with rfl | h
  · simp
  · rw [if_neg h, if_neg h]

theorem swapFun_comp (f : Nat → Nat) (t p q : Nat) :
    swapFun f t p q = f (swapFun id p t q) := by
  unfold swapFun
  rcases eq_or_ne q t with rfl | h1
  · rcases eq_or_ne q p with rfl | h2
    · simp
    · simp [h2]
  · rw [if_neg h1]
    rcases eq_or_ne q p with rfl | h2
    · simp
    · rw [if_neg h2, if_neg h2, if_neg h1]
      rfl

theorem swapFun_id_lt {r t q : Nat} (h1 : q ≠ r) (h2 : q ≠ t) : swapFun id r t q = q := by
  unfold swapFun
  rw [if_neg h1, if_neg h2]
  rfl

theorem swapFun_id_bound {r t q n : Nat} (hr : r < n) (ht : t < n) (hq : q < n) :
    swapFun id r t q < n := by
  unfold swapFun
  rcases eq_or_ne q r with rfl | h1
  · simpa using ht
  · rw [if_neg h1]
    rcases eq_or_ne q t with rfl | h2
    · simpa using hr
    · rw [if_neg h2]; exact hq

theorem swapFun_id_invol (r t q : Nat) : swapFun id r t (swapFun id r t q) = q := by
  unfold swapFun
  rcases eq_or_ne q r with rfl | h1
  · rcases eq_or_ne q t with rfl | h2
    · simp
    · simp [Ne.symm h2]
  · rw [if_neg h1]
    rcases eq_or_ne q t with rfl | h2
    · simp
    · simp [h1, h2]

theorem rowMap_succ (ip : Array ℤ) (t : Nat) :
    rowMap ip (t + 1) = swapFun (rowMap ip t) t ((iget ip t).toNat) := rfl

theorem rowMap_congr {ip ip' : Array ℤ} (t : Nat)
    (h : ∀ q, q < t → iget ip q = iget ip' q) :
    rowMap ip t = rowMap ip' t := by
  induction t with
  | zero => rfl
  | succ t ih =>
    rw [rowMap_succ, rowMap_succ, ih (fun q hq => h q (by omega)), h t (by omega)]

theorem rowMap_bound {ip : Array ℤ} {n : Nat} (t : Nat)
    (hr : ∀ j, j < t → (iget ip j).toNat < n) (htn : t ≤ n) :
    ∀ q, q < n → rowMap ip t q < n := by
  induction t with
  | zero => intro q hq; exact hq
  | succ t ih =>
    intro q hq
    rw [rowMap_succ, swapFun_comp]
    exact ih (fun j hj => hr j (by omega)) (by omega) _
      (swapFun_id_bound (hr t (by omega)) (by omega) hq)

theorem rowMap_fix {ip : Array ℤ} {n : Nat} (t : Nat)
    (hr : ∀ j, j < t → (iget ip j).toNat < n) (htn : t ≤ n) :
    ∀ q, n ≤ q → rowMap ip t q = q := by
  induction t with
  | zero => intro q _; rfl
  | succ t ih =>
    intro q hq
    rw [rowMap_succ, swapFun_comp,
      swapFun_id_lt (by have := hr t (by omega); omega) (by omega)]
    exact ih (fun j hj => hr j (by omega)) (by omega) q hq

theorem rowMap_surj {ip : Array ℤ} {n : Nat} (t : Nat)
    (hr : ∀ j, j < t → (iget ip j).toNat < n) (htn : t ≤ n) :
    ∀ v, v < n → ∃ q, q < n ∧ rowMap ip t q = v := by
  induction t with
  | zero => intro v hv; exact ⟨v, hv, rfl⟩
  | succ t ih =>
    intro v hv
    obtain ⟨q, hq, he⟩ := ih (fun j hj => hr j (by omega)) (by omega) v hv
    refine ⟨swapFun id ((iget ip t).toNat) t q, ?_, ?_⟩
    · exact swapFun_id_bound (hr t (by omega)) (by omega) hq
    · rw [rowMap_succ, swapFun_comp, swapFun_id_invol]
      exact he

end MatrixSolver

namespace MatrixSolver

theorem factorColumn_ok_entries {n t : Nat} {a : Array ℚ} {ip : Array ℤ}
    {a' : Array ℚ} {ip' : Array ℤ} (ha : a.size = n * n) (ht : t < n)
    (h : factorColumn n t a ip = .ok (a', ip')) :
    ∃ r : Nat, t ≤ r ∧ r < n
      ∧ ip' = ip.setD t ((r : Nat) : ℤ)
      ∧ lval (upperLoop n t a t) n t r ≠ 0
      ∧ (∀ i k, i < n → k < n → k ≠ t →
          aget a' (i * n + k) = aget a (swapFun id r t i * n + k))
      ∧ (∀ i, i < t → aget a' (i * n + t) = aget (upperLoop n t a t) (i * n + t))
      ∧ aget a' (t * n + t) = lval (upperLoop n t a t) n t r
      ∧ (∀ i, t < i → i < n →
          aget a' (i * n + t)
            = lval (upperLoop n t a t) n t (swapFun id r t i)
              * (1 / lval (upperLoop n t a t) n t r)) := by
  have ha1 : (upperLoop n t a t).size = n * n := by rw [size_upperLoop, ha]
  obtain ⟨r, hrow, hr1, hr2, _, _, _⟩ :=
    lowerLoop_pivot (upperLoop n t a t) ht (c := n - t) (by omega)
  set s := lowerLoop n t ⟨upperLoop n t a t, 0, -1⟩ (n - t) with hs
  have hsa_size : s.a.size = n * n := by rw [hs, size_lowerLoop]; exact ha1
  -- values of s.a
  have hSoff : ∀ i k, k < n → k ≠ t → aget s.a (i * n + k) = aget a (i * n + k) := by
    intro i k hk hkt
    rw [hs, lowerLoop_unchanged _ _ _ _ (fun i' h1 h2 e => absurd (flat_inj hk ht e).2 hkt),
      upperLoop_unchanged _ _ _ _ (fun i' hi' e => absurd (flat_inj hk ht e).2 hkt)]
  have hStopRows : ∀ i, i < t → aget s.a (i * n + t) = aget (upperLoop n t a t) (i * n + t) := by
    intro i hi
    rw [hs, lowerLoop_unchanged _ _ _ _ (fun i' h1 h2 e => absurd (flat_inj ht ht e).1 (by omega))]
  have hSl : ∀ i, t ≤ i → i < n → aget s.a (i * n + t) = lval (upperLoop n t a t) n t i := by
    intro i h1 h2
    rw [hs]
    exact lowerLoop_entry _ ha1 ht (by omega) h1 (by omega)
  rw [factorColumn_eq, ← hs] at h
  by_cases h1 : (t : ℤ) = s.largestRow
  · -- no swap: r = t
    rw [if_pos h1] at h
    obtain ⟨hip, hd, hcase⟩ := factorColPost_ok h
    have hrt : r = t := by
      have h3 : (t : ℤ) = (r : ℤ) := h1.trans hrow
      exact_mod_cast h3.symm
    subst hrt
    have hswid : ∀ i : Nat, swapFun id r r i = i := by
      intro i; rw [swapFun_self]; rfl
    have hdval : aget s.a (r * n + r) = lval (upperLoop n r a r) n r r :=
      hSl r (le_refl r) (by omega)
    refine ⟨r, le_refl r, by omega, by rw [hip, hrow], by rw [← hdval]; exact hd, ?_, ?_, ?_, ?_⟩
    · intro i k hi hk hkt
      rw [hswid]
      rcases hcase with ⟨hl, ha'⟩ | ⟨hl, ha'⟩
      · rw [ha', aget_scaleLoop_other _ _ _ _ _
          (fun c' hc' e => absurd (flat_inj hk ht e).2 hkt)]
        exact hSoff i k hk hkt
      · rw [ha']
        exact hSoff i k hk hkt
    · intro i hi
      rcases hcase with ⟨hl, ha'⟩ | ⟨hl, ha'⟩
      · rw [ha', aget_scaleLoop_other _ _ _ _ _
          (fun c' hc' e => absurd (flat_inj ht ht e).1 (by omega))]
        exact hStopRows i hi
      · rw [ha']
        exact hStopRows i hi
    · rcases hcase with ⟨hl, ha'⟩ | ⟨hl, ha'⟩
      · rw [ha', aget_scaleLoop_other _ _ _ _ _
          (fun c' hc' e => absurd (flat_inj ht ht e).1 (by omega))]
        exact hdval
      · rw [ha']
        exact hdval
    · intro i h2 h3
      rw [hswid]
      rcases hcase with ⟨hl, ha'⟩ | ⟨hl, ha'⟩
      · rw [ha', aget_scaleLoop_hit _ _ hsa_size ht (by omega) (by omega) (by omega),
          hSl i (by omega) h3, hdval]
      · exact absurd hl (by omega)
  · rw [if_neg h1] at h
    have h2 : ¬ s.largestRow = -1 := by rw [hrow]; omega
    rw [if_neg h2] at h
    obtain ⟨hip, hd, hcase⟩ := factorColPost_ok h
    have hrt : r ≠ t := by
      intro e; apply h1; rw [hrow, e]
    have htn : s.largestRow.toNat = r := by rw [hrow]; simp
    rw [htn] at h hd hcase
    have hswap : ∀ i k, i < n → k < n →
        aget (swapRows n r t s.a n) (i * n + k) = aget s.a (swapFun id r t i * n + k) := by
      intro i k hi hk
      exact aget_swapRows n s.a hsa_size hrt (by omega) ht hi hk
    have hdval : aget (swapRows n r t s.a n) (t * n + t) = lval (upperLoop n t a t) n t r := by
      rw [hswap t t ht ht]
      rw [show swapFun id r t t = r from by unfold swapFun; simp [Ne.symm hrt]]
      exact hSl r hr1 (by omega)
    refine ⟨r, hr1, by omega, by rw [hip, hrow], by rw [← hdval]; exact hd, ?_, ?_, ?_, ?_⟩
    · intro i k hi hk hkt
      rcases hcase with ⟨hl, ha'⟩ | ⟨hl, ha'⟩
      · rw [ha', aget_scaleLoop_other _ _ _ _ _
          (fun c' hc' e => absurd (flat_inj hk ht e).2 hkt)]
        rw [hswap i k hi hk]
        exact hSoff _ k hk hkt
      · rw [ha', hswap i k hi hk]
        exact hSoff _ k hk hkt
    · intro i hi
      have hswi : swapFun id r t i = i := swapFun_id_lt (by omega) (by omega)
      rcases hcase with ⟨hl, ha'⟩ | ⟨hl, ha'⟩
      · rw [ha', aget_scaleLoop_other _ _ _ _ _
          (fun c' hc' e => absurd (flat_inj ht ht e).1 (by omega))]
        rw [hswap i t (by omega) ht, hswi]
        exact hStopRows i hi
      · rw [ha', hswap i t (by omega) ht, hswi]
        exact hStopRows i hi
    · rcases hcase with ⟨hl, ha'⟩ | ⟨hl, ha'⟩
      · rw [ha', aget_scaleLoop_other _ _ _ _ _
          (fun c' hc' e => absurd (flat_inj ht ht e).1 (by omega))]
        exact hdval
      · rw [ha']
        exact hdval
    · intro i h3 h4
      have hswb : swapFun id r t i < n := swapFun_id_bound (by omega) ht h4
      have hswge : t ≤ swapFun id r t i := by
        unfold swapFun
        rcases eq_or_ne i r with rfl | hir
        · simp
        · rw [if_neg hir]
          rcases eq_or_ne i t with rfl | hit
          · simpa using hr1
          · rw [if_neg hit]
            show t ≤ i
            omega
      rcases hcase with ⟨hl, ha'⟩ | ⟨hl, ha'⟩
      · rw [ha', aget_scaleLoop_hit _ _ (by rw [size_swapRows]; exact hsa_size) ht
          (by omega) (by omega) (by omega), hswap i t h4 ht, hSl _ hswge hswb, hdval]
      · exact absurd hl (by omega)

end MatrixSolver

namespace MatrixSolver

theorem factorInv_step {A0 : Array ℚ} {n t : Nat} {a : Array ℚ} {ip : Array ℤ}
    {a' : Array ℚ} {ip' : Array ℤ}
    (hInv : FactorInv A0 n t a ip) (ht : t < n)
    (h : factorColumn n t a ip = .ok (a', ip')) :
    FactorInv A0 n (t + 1) a' ip' := by
  obtain ⟨r, hr1, hr2, hip', hlr, hOff, hColLow, hColDiag, hColBelow⟩ :=
    factorColumn_ok_entries hInv.sizeA ht h
  obtain ⟨hsa', hsip'⟩ := size_factorColumn_post h
  have hswlt : ∀ q, q < t → swapFun id r t q = q := fun q hq =>
    swapFun_id_lt (by omega) (by omega)
  have hswt : swapFun id r t t = r := by
    unfold swapFun
    rcases eq_or_ne t r with he | he
    · simp [he]
    · simp [he]
  have hswbound : ∀ q, q < n → swapFun id r t q < n := fun q hq =>
    swapFun_id_bound hr2 ht hq
  have hswge : ∀ q, t ≤ q → q < n → t ≤ swapFun id r t q := by
    intro q h1 h2
    unfold swapFun
    rcases eq_or_ne q r with rfl | hqr
    · simp
    · rw [if_neg hqr]
      rcases eq_or_ne q t with rfl | hqt
      · simpa using hr1
      · rw [if_neg hqt]
        exact h1
  have hswgt : ∀ q, t < q → q < n → t ≤ swapFun id r t q := fun q h1 h2 =>
    hswge q (by omega) h2
  have hipq : ∀ q, q < t → iget ip' q = iget ip q := by
    intro q hq
    rw [hip', iget_setD_ne _ _ (by omega)]
  have hipt : iget ip' t = ((r : Nat) : ℤ) := by
    rw [hip', iget_setD_self _ _ (by rw [hInv.sizeIp]; omega)]
  have hσ : rowMap ip t = rowMap ip' t :=
    rowMap_congr t (fun q hq => (hipq q hq).symm)
  have hσ' : ∀ q, rowMap ip' (t + 1) q = rowMap ip t (swapFun id r t q) := by
    intro q
    rw [rowMap_succ, swapFun_comp, ← hσ, hipt, Int.toNat_natCast]
  -- the upper-pass state and its equations
  have hA1off : ∀ i k, k < n → k ≠ t → aget (upperLoop n t a t) (i * n + k) = aget a (i * n + k) := by
    intro i k hk hkt
    exact upperLoop_unchanged _ _ _ _ (fun i' hi' e => absurd (flat_inj hk ht e).2 hkt)
  have hA1r : ∀ i, t ≤ i → aget (upperLoop n t a t) (i * n + t) = aget a (i * n + t) := by
    intro i hi
    exact upperLoop_unchanged _ _ _ _ (fun i' hi' e => absurd (flat_inj ht ht e).1 (by omega))
  have hU : ∀ i, i < t →
      aget (upperLoop n t a t) (i * n + t)
        = aget a (i * n + t)
          - sumTo (fun k => aget a (i * n + k) * aget (upperLoop n t a t) (k * n + t)) i :=
    fun i hi => upperLoop_entry a hInv.sizeA ht (le_refl t) hi
  have hlval : ∀ p, t ≤ p → p < n →
      lval (upperLoop n t a t) n t p
        = aget A0 (rowMap ip t p * n + t)
          - sumTo (fun k => aget a (p * n + k) * aget (upperLoop n t a t) (k * n + t)) t := by
    intro p h1 h2
    unfold lval reduceEntry
    rw [hA1r p h1, hInv.unproc p h2 t (le_refl t) ht]
    congr 1
    apply sumTo_congr
    intro k hk
    dsimp only
    rw [hA1off p k (by omega) (by omega)]
  refine ⟨by rw [hsa', hInv.sizeA], by rw [hsip', hInv.sizeIp], ?_, ?_, ?_, ?_, ?_⟩
  · -- ipRange
    intro j hj
    rcases Nat.lt_or_ge j t with hlt | hge
    · rw [hipq j hlt]
      exact hInv.ipRange j hlt
    · have hjt : j = t := by omega
      subst hjt
      rw [hipt]
      exact ⟨by exact_mod_cast hr1, by exact_mod_cast hr2⟩
  · -- diagNe
    intro j hj
    rcases Nat.lt_or_ge j t with hlt | hge
    · rw [hOff j j (by omega) (by omega) (by omega), hswlt j hlt]
      exact hInv.diagNe j hlt
    · have hjt : j = t := by omega
      subst hjt
      rw [hColDiag]
      exact hlr
  · -- unproc
    intro i hi c hc1 hc2
    rw [hOff i c hi hc2 (by omega), hσ' i]
    exact hInv.unproc (swapFun id r t i) (hswbound i hi) c (by omega) hc2
  · -- upperEq
    intro c hc i hi
    rcases Nat.lt_or_ge c t with hct | hct
    · -- c < t : untouched region
      have hswi : swapFun id r t i = i := hswlt i (by omega)
      rw [hσ' i, hswi]
      have e1 : ∀ k, k < i → aget a' (i * n + k) = aget a (i * n + k) := by
        intro k hk
        rw [hOff i k (by omega) (by omega) (by omega), hswi]
      have e2 : ∀ k, k < i → aget a' (k * n + c) = aget a (k * n + c) := by
        intro k hk
        rw [hOff k c (by omega) (by omega) (by omega), hswlt k (by omega)]
      have e3 : aget a' (i * n + c) = aget a (i * n + c) := by
        rw [hOff i c (by omega) (by omega) (by omega), hswi]
      have esum : sumTo (fun k => aget a' (i * n + k) * aget a' (k * n + c)) i
          = sumTo (fun k => aget a (i * n + k) * aget a (k * n + c)) i :=
        sumTo_congr (fun k hk => by rw [e1 k hk, e2 k hk])
      rw [e3, esum]
      exact hInv.upperEq c hct i hi
    · have hctt : c = t := by omega
      subst hctt
      rcases Nat.lt_or_ge i c with hic | hic
      · -- i < t : the upper-pass entry
        have hswi : swapFun id r c i = i := hswlt i hic
        rw [hσ' i, hswi]
        have e1 : ∀ k, k < i → aget a' (i * n + k) = aget a (i * n + k) := by
          intro k hk
          rw [hOff i k (by omega) (by omega) (by omega), hswi]
        have e2 : ∀ k, k < i → aget a' (k * n + c) = aget (upperLoop n c a c) (k * n + c) := by
          intro k hk
          exact hColLow k (by omega)
        have esum : sumTo (fun k => aget a' (i * n + k) * aget a' (k * n + c)) i
            = sumTo (fun k => aget a (i * n + k) * aget (upperLoop n c a c) (k * n + c)) i :=
          sumTo_congr (fun k hk => by rw [e1 k hk, e2 k hk])
        rw [hColLow i hic, esum, hU i hic, hInv.unproc i (by omega) c (le_refl c) ht]
        ring
      · -- i = t : the pivot entry
        have hit : i = c := by omega
        subst hit
        rw [hσ' i, hswt]
        have e1 : ∀ k, k < i → aget a' (i * n + k) = aget a (r * n + k) := by
          intro k hk
          rw [hOff i k (by omega) (by omega) (by omega), hswt]
        have e2 : ∀ k, k < i → aget a' (k * n + i) = aget (upperLoop n i a i) (k * n + i) := by
          intro k hk
          exact hColLow k (by omega)
        have esum : sumTo (fun k => aget a' (i * n + k) * aget a' (k * n + i)) i
            = sumTo (fun k => aget a (r * n + k) * aget (upperLoop n i a i) (k * n + i)) i :=
          sumTo_congr (fun k hk => by rw [e1 k hk, e2 k hk])
        rw [hColDiag, esum, hlval r hr1 hr2]
        ring
  · -- lowerEq
    intro c hc i hi hci
    rcases Nat.lt_or_ge c t with hct | hct
    · -- c < t : untouched region, row permuted
      rw [hσ' i]
      have hswi_lt : c < swapFun id r t i := by
        unfold swapFun
        rcases eq_or_ne i r with rfl | h1
        · simpa using (by omega : c < t)
        · rw [if_neg h1]
          rcases eq_or_ne i t with rfl | h2
          · simpa using (by omega : c < r)
          · rw [if_neg h2]
            simpa using hci
      have e1 : ∀ k, k < c → aget a' (i * n + k) = aget a (swapFun id r t i * n + k) := by
        intro k hk
        rw [hOff i k (by omega) (by omega) (by omega)]
      have e2 : ∀ k, k < c → aget a' (k * n + c) = aget a (k * n + c) := by
        intro k hk
        rw [hOff k c (by omega) (by omega) (by omega), hswlt k (by omega)]
      have e3 : aget a' (i * n + c) = aget a (swapFun id r t i * n + c) := by
        rw [hOff i c (by omega) (by omega) (by omega)]
      have e4 : aget a' (c * n + c) = aget a (c * n + c) := by
        rw [hOff c c (by omega) (by omega) (by omega), hswlt c (by omega)]
      have esum : sumTo (fun k => aget a' (i * n + k) * aget a' (k * n + c)) c
          = sumTo (fun k => aget a (swapFun id r t i * n + k) * aget a (k * n + c)) c :=
        sumTo_congr (fun k hk => by rw [e1 k hk, e2 k hk])
      rw [e3, e4, esum]
      exact hInv.lowerEq c hct (swapFun id r t i) (hswbound i hi) hswi_lt
    · have hctt : c = t := by omega
      subst hctt
      -- c = t < i : the scaled multiplier entry
      rw [hσ' i]
      have e1 : ∀ k, k < c → aget a' (i * n + k) = aget a (swapFun id r c i * n + k) := by
        intro k hk
        rw [hOff i k (by omega) (by omega) (by omega)]
      have e2 : ∀ k, k < c → aget a' (k * n + c) = aget (upperLoop n c a c) (k * n + c) := by
        intro k hk
        exact hColLow k (by omega)
      have hprod : aget a' (i * n + c) * aget a' (c * n + c)
          = lval (upperLoop n c a c) n c (swapFun id r c i) := by
        rw [hColBelow i hci hi, hColDiag]
        field_simp
      have esum : sumTo (fun k => aget a' (i * n + k) * aget a' (k * n + c)) c
          = sumTo (fun k => aget a (swapFun id r c i * n + k) * aget (upperLoop n c a c) (k * n + c)) c :=
        sumTo_congr (fun k hk => by rw [e1 k hk, e2 k hk])
      rw [hprod, esum, hlval (swapFun id r c i) (hswgt i hci hi) (hswbound i hi)]
      ring

end MatrixSolver

namespace MatrixSolver

theorem factorInv_base {n : Nat} {a : Array ℚ} {ip : Array ℤ}
    (ha : a.size = n * n) (hip : ip.size = n) : FactorInv a n 0 a ip :=
  ⟨ha, hip,
    fun j hj => absurd hj (Nat.not_lt_zero j),
    fun j hj => absurd hj (Nat.not_lt_zero j),
    fun _ _ _ _ _ => rfl,
    fun c hc => absurd hc (Nat.not_lt_zero c),
    fun c hc => absurd hc (Nat.not_lt_zero c)⟩

theorem runCols_inv {A0 : Array ℚ} {n : Nat} :
    ∀ (c : Nat) {t : Nat} {a : Array ℚ} {ip : Array ℤ} {a' : Array ℚ} {ip' : Array ℤ},
    FactorInv A0 n t a ip → t + c ≤ n →
    runCols n a ip t c = .ok (a', ip') →
    FactorInv A0 n (t + c) a' ip' := by
  intro c
  induction c with
  | zero =>
    intro t a ip a' ip' hInv _ h
    rw [runCols_zero] at h
    have h2 : (a, ip) = (a', ip') := by simpa using h
    have h3 : a = a' := congrArg Prod.fst h2
    have h4 : ip = ip' := congrArg Prod.snd h2
    subst h3
    subst h4
    simpa using hInv
  | succ c ih =>
    intro t a ip a' ip' hInv hle h
    rw [runCols_succ] at h
    cases hcol : factorColumn n t a ip with
    | error out =>
      rw [hcol] at h
      exact absurd h (by simp)
    | ok p =>
      rw [hcol] at h
      cases p with
      | mk a1 ip1 =>
        have hInv1 := factorInv_step hInv (by omega) hcol
        have hres := ih hInv1 (by omega) h
        rw [show t + (c + 1) = t + 1 + c from by omega]
        exact hres

end MatrixSolver

namespace MatrixSolver

theorem permApply_last (ip : Array ℤ) (b : Array ℚ) (t : Nat) :
    permApply ip b 0 (t + 1) = exchg (permApply ip b 0 t) ((iget ip t).toNat) t := by
  rw [← permApply_compose ip t b 0 1, Nat.zero_add,
    show (1 : Nat) = 0 + 1 from rfl, permApply_succ]
  rfl

theorem permApply_front (ip : Array ℤ) {t q : Nat} (b : Array ℚ)
    (hr : ∀ s, s < t → s ≤ (iget ip s).toNat) (hq : q < t) (hqs : q < b.size) :
    aget (permApply ip b 0 t) q = aget (permApply ip b 0 q) ((iget ip q).toNat) := by
  rw [show t = (q + 1) + (t - (q + 1)) from by omega, ← permApply_compose, Nat.zero_add,
    permApply_stable ip (t - (q + 1)) _ (q + 1) q (fun s h1 h2 => hr s (by omega)) (by omega),
    permApply_last]
  exact aget_exchg_snd _ (by rw [size_permApply]; exact hqs)

theorem permApply_rowMap (ip : Array ℤ) :
    ∀ (t : Nat) (b : Array ℚ),
    (∀ s, s < t → (iget ip s).toNat < b.size) → t ≤ b.size →
    ∀ q, aget (permApply ip b 0 t) q = aget b (rowMap ip t q) := by
  intro t
  induction t with
  | zero => intro b _ _ q; rfl
  | succ t ih =>
    intro b hp ht q
    have hB : (permApply ip b 0 t).size = b.size := size_permApply ip t b 0
    have hih := ih b (fun s hs => hp s (by omega)) (by omega)
    rw [permApply_last, rowMap_succ]
    unfold swapFun
    rcases eq_or_ne q t with rfl | hqt
    · rw [if_pos rfl, aget_exchg_snd _ (by rw [hB]; omega), hih]
    · rw [if_neg hqt]
      rcases eq_or_ne q ((iget ip t).toNat) with rfl | hqp
      · rw [if_pos rfl, aget_exchg_fst _ hqt (by rw [hB]; exact hp t (by omega)), hih]
      · rw [if_neg hqp, aget_exchg_other _ hqp hqt, hih]

theorem size_pureFwdLoop (a : Array ℚ) (n bi : Nat) :
    ∀ (c : Nat) (b : Array ℚ) (i : Nat), (pureFwdLoop a n bi b i c).size = b.size := by
  intro c
  induction c with
  | zero => intro b i; rfl
  | succ c ih => intro b i; rw [pureFwdLoop_succ, ih, Array.size_setD]

theorem pureFwdLoop_entry (a : Array ℚ) (n bi : Nat) :
    ∀ (c : Nat) (b : Array ℚ) (i : Nat), b.size = n → i + c ≤ n →
    ((∀ q, q < i ∨ i + c ≤ q → aget (pureFwdLoop a n bi b i c) q = aget b q)
     ∧ (∀ q, i ≤ q → q < i + c →
        aget (pureFwdLoop a n bi b i c) q
          = aget b q - sumTo (fun k => aget a (q * n + (bi + k))
              * aget (pureFwdLoop a n bi b i c) (bi + k)) (q - bi))) := by
  intro c
  induction c with
  | zero =>
    intro b i _ _
    exact ⟨fun q _ => rfl, fun q h1 h2 => absurd h2 (by omega)⟩
  | succ c ih =>
    intro b i hb hc
    rw [pureFwdLoop_succ]
    obtain ⟨hstab, hmain⟩ := ih
      (b.setD i (aget b i - sumTo (fun k => aget a (i * n + (bi + k)) * aget b (bi + k)) (i - bi)))
      (i + 1) (by rw [Array.size_setD, hb]) (by omega)
    refine ⟨?_, ?_⟩
    · intro q hq
      rw [hstab q (by omega), aget_setD_ne _ _ (by omega)]
    · intro q h1 h2
      rcases eq_or_ne q i with rfl | hne
      · rw [hstab q (Or.inl (by omega)),
          aget_setD_self _ _ (by rw [hb]; omega)]
        have hcong : sumTo (fun k => aget a (q * n + (bi + k)) * aget b (bi + k)) (q - bi)
            = sumTo (fun k => aget a (q * n + (bi + k))
                * aget (pureFwdLoop a n bi
                    (b.setD q (aget b q - sumTo (fun k => aget a (q * n + (bi + k)) * aget b (bi + k)) (q - bi)))
                    (q + 1) c) (bi + k)) (q - bi) := by
          refine sumTo_congr (fun k hk => ?_)
          rw [hstab (bi + k) (Or.inl (by omega)), aget_setD_ne _ _ (by omega)]
        rw [← hcong]
      · rw [hmain q (by omega) (by omega), aget_setD_ne _ _ (fun e => hne e.symm)]

theorem backLoop_succ (a : Array ℚ) (n : Nat) (b : Array ℚ) (c : Nat) :
    backLoop a n b (c + 1)
      = backLoop a n
          (b.setD c ((aget b c - sumTo (fun k => aget a (c * n + (c + 1 + k)) * aget b (c + 1 + k))
              (n - (c + 1))) / aget a (c * n + c))) c := rfl

theorem backLoop_entry (a : Array ℚ) (n : Nat) :
    ∀ (c : Nat) (b : Array ℚ), c ≤ n → b.size = n →
    ((∀ q, c ≤ q → aget (backLoop a n b c) q = aget b q)
     ∧ (∀ q, q < c →
        aget (backLoop a n b c) q
          = (aget b q - sumTo (fun k => aget a (q * n + (q + 1 + k))
              * aget (backLoop a n b c) (q + 1 + k)) (n - (q + 1))) / aget a (q * n + q))) := by
  intro c
  induction c with
  | zero =>
    intro b _ _
    exact ⟨fun q _ => rfl, fun q h => absurd h (by omega)⟩
  | succ c ih =>
    intro b hc hb
    rw [backLoop_succ]
    obtain ⟨hstab, hmain⟩ := ih
      (b.setD c ((aget b c - sumTo (fun k => aget a (c * n + (c + 1 + k)) * aget b (c + 1 + k))
          (n - (c + 1))) / aget a (c * n + c)))
      (by omega) (by rw [Array.size_setD, hb])
    refine ⟨?_, ?_⟩
    · intro q hq
      rw [hstab q (by omega), aget_setD_ne _ _ (by omega)]
    · intro q hq
      rcases eq_or_ne q c with rfl | hne
      · rw [hstab q (le_refl q), aget_setD_self _ _ (by rw [hb]; omega)]
        have hcong : sumTo (fun k => aget a (q * n + (q + 1 + k)) * aget b (q + 1 + k)) (n - (q + 1))
            = sumTo (fun k => aget a (q * n + (q + 1 + k))
                * aget (backLoop a n
                    (b.setD q ((aget b q - sumTo (fun k => aget a (q * n + (q + 1 + k)) * aget b (q + 1 + k))
                        (n - (q + 1))) / aget a (q * n + q)))
                    q) (q + 1 + k)) (n - (q + 1)) := by
          refine sumTo_congr (fun k hk => ?_)
          rw [hstab (q + 1 + k) (by omega), aget_setD_ne _ _ (by omega)]
        rw [← hcong]
      · rw [hmain q (by omega), aget_setD_ne _ _ (fun e => hne e.symm)]

end MatrixSolver

namespace MatrixSolver

theorem lu_solve_decomp {n : Nat} (aF : Array ℚ) {ipF : Array ℤ} (b : Array ℚ)
    (hb : b.size = n)
    (hr1 : ∀ q, q < n → q ≤ (iget ipF q).toNat) :
    ∃ y : Array ℚ, y.size = n
      ∧ lu_solve aF n ipF b = backLoop aF n y n
      ∧ ∀ q, q < n →
          aget (permApply ipF b 0 n) q
            = sumTo (fun j => aget aF (q * n + j) * aget y j) q + aget y q := by
  have hPbs : (permApply ipF b 0 n).size = n := by rw [size_permApply, hb]
  have hdef : lu_solve aF n ipF b
      = backLoop aF n (forwardLoop aF n ipF (permLoop ipF b 0 n).2.1 (permLoop ipF b 0 n).1
          (permLoop ipF b 0 n).2.2 (n - (permLoop ipF b 0 n).2.2)) n := rfl
  rcases permLoop_cases ipF n b 0 with ⟨hz, heq⟩ | ⟨m, hm0, hmn, hz, hnz, heq⟩
  · have hz' : ∀ q, q < n → aget (permApply ipF b 0 n) q = 0 := by
      intro q hq
      rw [permApply_front ipF b hr1 hq (by rw [hb]; exact hq)]
      have h2 := hz q (Nat.zero_le q) (by omega)
      rw [Nat.sub_zero] at h2
      exact h2
    refine ⟨permApply ipF b 0 n, hPbs, ?_, ?_⟩
    · rw [hdef, heq]
      show backLoop aF n (forwardLoop aF n ipF 0 (permApply ipF b 0 n) (0 + n) (n - (0 + n))) n = _
      rw [Nat.zero_add, Nat.sub_self]
      rfl
    · intro q hq
      rw [hz' q hq, sumTo_zero_of (fun k hk => by rw [hz' k (by omega), mul_zero]), zero_add]
  · rw [Nat.sub_zero] at heq hnz
    have hmn' : m < n := by omega
    have hswap : permApply ipF (permApply ipF b 0 (m + 1)) (m + 1) (n - (m + 1))
        = permApply ipF b 0 n := by
      have h2 := permApply_compose ipF (m + 1) b 0 (n - (m + 1))
      rw [Nat.zero_add] at h2
      rw [h2, show (m + 1) + (n - (m + 1)) = n from by omega]
    have hy : forwardLoop aF n ipF m (permApply ipF b 0 (m + 1)) (m + 1) (n - (m + 1))
        = pureFwdLoop aF n m (permApply ipF b 0 n) (m + 1) (n - (m + 1)) := by
      rw [forwardLoop_perm aF n ipF m hr1 (n - (m + 1)) _ (m + 1)
        (by rw [size_permApply, hb]) (by omega), hswap]
    obtain ⟨hstab, hfmain⟩ :=
      pureFwdLoop_entry aF n m (n - (m + 1)) (permApply ipF b 0 n) (m + 1) hPbs (by omega)
    have hz' : ∀ j, j < m → aget (permApply ipF b 0 n) j = 0 := by
      intro j hj
      rw [permApply_front ipF b hr1 (by omega) (by rw [hb]; omega)]
      have h2 := hz j (Nat.zero_le j) (by omega)
      rw [Nat.sub_zero] at h2
      exact h2
    have hyj0 : ∀ j, j < m →
        aget (pureFwdLoop aF n m (permApply ipF b 0 n) (m + 1) (n - (m + 1))) j = 0 := by
      intro j hj
      rw [hstab j (Or.inl (by omega))]
      exact hz' j hj
    refine ⟨pureFwdLoop aF n m (permApply ipF b 0 n) (m + 1) (n - (m + 1)),
      by rw [size_pureFwdLoop, hPbs], ?_, ?_⟩
    · rw [hdef, heq]
      show backLoop aF n
        (forwardLoop aF n ipF m (permApply ipF b 0 (m + 1)) (m + 1) (n - (m + 1))) n = _
      rw [hy]
    · intro q hq
      rcases le_or_lt q m with hqm | hqm
      · rw [hstab q (Or.inl (by omega)),
          sumTo_zero_of (fun k hk => by rw [hyj0 k (by omega), mul_zero]), zero_add]
      · have hf := hfmain q (by omega) (by omega)
        have hsum : sumTo (fun j => aget aF (q * n + j)
              * aget (pureFwdLoop aF n m (permApply ipF b 0 n) (m + 1) (n - (m + 1))) j) q
            = sumTo (fun k => aget aF (q * n + (m + k))
              * aget (pureFwdLoop aF n m (permApply ipF b 0 n) (m + 1) (n - (m + 1))) (m + k))
                (q - m) := by
          have h1 := sumTo_add (fun j => aget aF (q * n + j)
            * aget (pureFwdLoop aF n m (permApply ipF b 0 n) (m + 1) (n - (m + 1))) j) m (q - m)
          rw [show m + (q - m) = q from by omega] at h1
          rw [h1, sumTo_zero_of (fun k hk => by rw [hyj0 k (by omega)]; exact mul_zero _),
            zero_add]
        rw [hsum, hf]
        ring

end MatrixSolver

namespace MatrixSolver

theorem crout_entry_formula {A0 aF : Array ℚ} {ipF : Array ℤ} {n : Nat}
    (hInv : FactorInv A0 n n aF ipF) :
    ∀ i c, i < n → c < n →
    aget A0 (rowMap ipF n i * n + c)
      = ∑ k ∈ Finset.range n,
          (if k < i then aget aF (i * n + k) else if k = i then 1 else 0)
          * (if k ≤ c then aget aF (k * n + c) else 0) := by
  intro i c hi hc
  rcases lt_or_le c i with hci | hic
  · have e1 : (∑ k ∈ Finset.range n,
        (if k < i then aget aF (i * n + k) else if k = i then 1 else 0)
        * (if k ≤ c then aget aF (k * n + c) else 0))
      = ∑ k ∈ Finset.range (c + 1),
        (if k < i then aget aF (i * n + k) else if k = i then 1 else 0)
        * (if k ≤ c then aget aF (k * n + c) else 0) := by
      rw [← Finset.sum_range_add_sum_Ico _ (show c + 1 ≤ n from hc),
        show (∑ k ∈ Finset.Ico (c + 1) n,
            (if k < i then aget aF (i * n + k) else if k = i then 1 else 0)
            * (if k ≤ c then aget aF (k * n + c) else 0)) = 0 from
          Finset.sum_eq_zero (fun k hk => by
            rw [Finset.mem_Ico] at hk
            rw [if_neg (show ¬ k ≤ c from by omega), mul_zero]),
        add_zero]
    have e2 : (∑ k ∈ Finset.range c,
        (if k < i then aget aF (i * n + k) else if k = i then 1 else 0)
        * (if k ≤ c then aget aF (k * n + c) else 0))
      = sumTo (fun k => aget aF (i * n + k) * aget aF (k * n + c)) c := by
      rw [sumTo_eq_range_sum]
      exact Finset.sum_congr rfl (fun k hk => by
        rw [Finset.mem_range] at hk
        rw [if_pos (show k < i from by omega), if_pos (show k ≤ c from by omega)])
    rw [e1, Finset.sum_range_succ, if_pos hci, if_pos (le_refl c), e2]
    exact hInv.lowerEq c hc i hi hci
  · have e1 : (∑ k ∈ Finset.range n,
        (if k < i then aget aF (i * n + k) else if k = i then 1 else 0)
        * (if k ≤ c then aget aF (k * n + c) else 0))
      = ∑ k ∈ Finset.range (i + 1),
        (if k < i then aget aF (i * n + k) else if k = i then 1 else 0)
        * (if k ≤ c then aget aF (k * n + c) else 0) := by
      rw [← Finset.sum_range_add_sum_Ico _ (show i + 1 ≤ n from hi),
        show (∑ k ∈ Finset.Ico (i + 1) n,
            (if k < i then aget aF (i * n + k) else if k = i then 1 else 0)
            * (if k ≤ c then aget aF (k * n + c) else 0)) = 0 from
          Finset.sum_eq_zero (fun k hk => by
            rw [Finset.mem_Ico] at hk
            rw [if_neg (show ¬ k < i from by omega),
              if_neg (show k ≠ i from by omega), zero_mul]),
        add_zero]
    have e2 : (∑ k ∈ Finset.range i,
        (if k < i then aget aF (i * n + k) else if k = i then 1 else 0)
        * (if k ≤ c then aget aF (k * n + c) else 0))
      = sumTo (fun k => aget aF (i * n + k) * aget aF (k * n + c)) i := by
      rw [sumTo_eq_range_sum]
      exact Finset.sum_congr rfl (fun k hk => by
        rw [Finset.mem_range] at hk
        rw [if_pos (show k < i from hk), if_pos (show k ≤ c from by omega)])
    rw [e1, Finset.sum_range_succ, if_neg (lt_irrefl i), if_pos rfl, if_pos hic, one_mul, e2]
    exact hInv.upperEq c hc i hic

theorem column_sum_formula {aF : Array ℚ} {n : Nat} {x y : Array ℚ}
    (h : ∀ q, q < n → aget y q = aget aF (q * n + q) * aget x q
        + sumTo (fun k => aget aF (q * n + (q + 1 + k)) * aget x (q + 1 + k)) (n - (q + 1))) :
    ∀ k, k < n →
      (∑ c ∈ Finset.range n, (if k ≤ c then aget aF (k * n + c) else 0) * aget x c)
        = aget y k := by
  intro k hk
  have e1 : (∑ c ∈ Finset.range n, (if k ≤ c then aget aF (k * n + c) else 0) * aget x c)
      = ∑ c ∈ Finset.Ico k n, (if k ≤ c then aget aF (k * n + c) else 0) * aget x c := by
    rw [← Finset.sum_range_add_sum_Ico _ (le_of_lt hk),
      show (∑ c ∈ Finset.range k, (if k ≤ c then aget aF (k * n + c) else 0) * aget x c) = 0 from
        Finset.sum_eq_zero (fun c hc => by
          rw [Finset.mem_range] at hc
          rw [if_neg (show ¬ k ≤ c from by omega), zero_mul]),
      zero_add]
  have e2 : (∑ c ∈ Finset.Ico k n, (if k ≤ c then aget aF (k * n + c) else 0) * aget x c)
      = ∑ c ∈ Finset.Ico k n, aget aF (k * n + c) * aget x c :=
    Finset.sum_congr rfl (fun c hc => by
      rw [Finset.mem_Ico] at hc
      rw [if_pos hc.1])
  have e3 : (∑ c ∈ Finset.Ico k n, aget aF (k * n + c) * aget x c)
      = aget aF (k * n + k) * aget x k
        + ∑ c ∈ Finset.Ico (k + 1) n, aget aF (k * n + c) * aget x c := by
    rw [← Finset.sum_Ico_consecutive _ (Nat.le_succ k) (show k + 1 ≤ n from hk),
      Nat.Ico_succ_singleton, Finset.sum_singleton]
  have e4 : (∑ c ∈ Finset.Ico (k + 1) n, aget aF (k * n + c) * aget x c)
      = sumTo (fun t => aget aF (k * n + (k + 1 + t)) * aget x (k + 1 + t)) (n - (k + 1)) := by
    rw [Finset.sum_Ico_eq_sum_range, sumTo_eq_range_sum]
    try exact Finset.sum_congr rfl (fun j hj => rfl)
  rw [e1, e2, e3, e4, h k hk]

end MatrixSolver

namespace MatrixSolver

theorem lu_solve_correct {A0 aF : Array ℚ} {ipF : Array ℤ} {n : Nat}
    (hInv : FactorInv A0 n n aF ipF) (b : Array ℚ) (hb : b.size = n) :
    ∀ r, r < n →
      sumTo (fun c => aget A0 (r * n + c) * aget (lu_solve aF n ipF b) c) n = aget b r := by
  have hr1 : ∀ q, q < n → q ≤ (iget ipF q).toNat := by
    intro q hq
    have h := hInv.ipRange q hq
    omega
  have hr2 : ∀ q, q < n → (iget ipF q).toNat < n := by
    intro q hq
    have h := hInv.ipRange q hq
    omega
  obtain ⟨y, hysize, hsolve, G1⟩ := lu_solve_decomp aF b hb hr1
  obtain ⟨hxstab, hG2⟩ := backLoop_entry aF n n y (le_refl n) hysize
  have G2 : ∀ q, q < n →
      aget y q = aget aF (q * n + q) * aget (backLoop aF n y n) q
        + sumTo (fun k => aget aF (q * n + (q + 1 + k)) * aget (backLoop aF n y n) (q + 1 + k))
            (n - (q + 1)) := by
    intro q hq
    have hd := hInv.diagNe q hq
    have h := hG2 q hq
    rw [eq_div_iff hd] at h
    rw [mul_comm (aget aF (q * n + q)) _]
    linarith [h]
  have hPbSigma : ∀ q, aget (permApply ipF b 0 n) q = aget b (rowMap ipF n q) :=
    permApply_rowMap ipF n b (fun s hs => by rw [hb]; exact hr2 s hs) (le_of_eq hb.symm)
  have colF := column_sum_formula G2
  have entryF := crout_entry_formula hInv
  have main : ∀ i, i < n →
      (∑ c ∈ Finset.range n, aget A0 (rowMap ipF n i * n + c) * aget (backLoop aF n y n) c)
        = aget b (rowMap ipF n i) := by
    intro i hi
    calc ∑ c ∈ Finset.range n, aget A0 (rowMap ipF n i * n + c) * aget (backLoop aF n y n) c
        = ∑ c ∈ Finset.range n, (∑ k ∈ Finset.range n,
            (if k < i then aget aF (i * n + k) else if k = i then 1 else 0)
            * (if k ≤ c then aget aF (k * n + c) else 0)) * aget (backLoop aF n y n) c :=
          Finset.sum_congr rfl (fun c hc => by
            rw [Finset.mem_range] at hc
            rw [entryF i c hi hc])
      _ = ∑ c ∈ Finset.range n, ∑ k ∈ Finset.range n,
            (if k < i then aget aF (i * n + k) else if k = i then 1 else 0)
            * ((if k ≤ c then aget aF (k * n + c) else 0) * aget (backLoop aF n y n) c) :=
          Finset.sum_congr rfl (fun c hc => by
            rw [Finset.sum_mul]
            exact Finset.sum_congr rfl (fun k hk => by rw [mul_assoc]))
      _ = ∑ k ∈ Finset.range n, ∑ c ∈ Finset.range n,
            (if k < i then aget aF (i * n + k) else if k = i then 1 else 0)
            * ((if k ≤ c then aget aF (k * n + c) else 0) * aget (backLoop aF n y n) c) :=
          Finset.sum_comm
      _ = ∑ k ∈ Finset.range n,
            (if k < i then aget aF (i * n + k) else if k = i then 1 else 0) * aget y k :=
          Finset.sum_congr rfl (fun k hk => by
            rw [Finset.mem_range] at hk
            rw [← Finset.mul_sum, colF k hk])
      _ = (∑ k ∈ Finset.range i,
            (if k < i then aget aF (i * n + k) else if k = i then 1 else 0) * aget y k)
          + (if i < i then aget aF (i * n + i) else if i = i then 1 else 0) * aget y i := by
          rw [← Finset.sum_range_add_sum_Ico _ (show i + 1 ≤ n from hi),
            show (∑ k ∈ Finset.Ico (i + 1) n,
                (if k < i then aget aF (i * n + k) else if k = i then 1 else 0) * aget y k)
              = 0 from
              Finset.sum_eq_zero (fun k hk => by
                rw [Finset.mem_Ico] at hk
                rw [if_neg (show ¬ k < i from by omega),
                  if_neg (show k ≠ i from by omega), zero_mul]),
            add_zero, Finset.sum_range_succ]
      _ = sumTo (fun j => aget aF (i * n + j) * aget y j) i + aget y i := by
          rw [if_neg (lt_irrefl i), if_pos rfl, one_mul, sumTo_eq_range_sum]
          congr 1
          exact Finset.sum_congr rfl (fun k hk => by
            rw [Finset.mem_range] at hk
            rw [if_pos hk])
      _ = aget (permApply ipF b 0 n) i := (G1 i hi).symm
      _ = aget b (rowMap ipF n i) := hPbSigma i
  intro r hr
  obtain ⟨i, hi, hs⟩ := rowMap_surj n hr2 (le_refl n) r hr
  rw [sumTo_eq_range_sum, hsolve]
  calc ∑ c ∈ Finset.range n, aget A0 (r * n + c) * aget (backLoop aF n y n) c
      = ∑ c ∈ Finset.range n, aget A0 (rowMap ipF n i * n + c) * aget (backLoop aF n y n) c := by
        rw [hs]
    _ = aget b (rowMap ipF n i) := main i hi
    _ = aget b r := by rw [hs]

end MatrixSolver

namespace MatrixSolver

theorem lu_factor_inv {a : Array ℚ} {n : Nat} {ip : Array ℤ}
    (ha : a.size = n * n) (hip : ip.size = n)
    (h : (lu_factor a n ip).ret = -1) :
    ∃ aF ipF, lu_factor a n ip = ⟨-1, aF, ipF⟩ ∧ FactorInv a n n aF ipF := by
  obtain ⟨hz, aF, ipF, hrun, heq⟩ := lu_factor_success ha hip h
  refine ⟨aF, ipF, heq, ?_⟩
  have h2 := runCols_inv n (factorInv_base ha hip) (by omega) hrun
  rw [Nat.zero_add] at h2
  exact h2

/-- C1: on every `n`×`n` matrix `a` and right-hand side `b` for which `lu_factor`
returns `-1` (success), running `lu_solve` on the factored matrix with the produced
pivot vector yields a vector `x` with `A·x = b` exactly, row by row, in the exact
rational model of the C doubles. -/
theorem C1_solve_correct {a : Array ℚ} {n : Nat} {ip : Array ℤ} (b : Array ℚ)
    (ha : a.size = n * n) (hip : ip.size = n) (hb : b.size = n)
    (h : (lu_factor a n ip).ret = -1) :
    ∀ r, r < n →
      sumTo (fun c => aget a (r * n + c)
        * aget (lu_solve (lu_factor a n ip).a n (lu_factor a n ip).ipvt b) c) n = aget b r := by
  obtain ⟨aF, ipF, heq, hInv⟩ := lu_factor_inv ha hip h
  rw [heq]
  exact lu_solve_correct hInv b hb

end MatrixSolver

namespace MatrixSolver

theorem C1_solve_correct_witness :
    (#[(4:ℚ), 3, 6, 3].size = 2 * 2)
    ∧ (#[(0:ℤ), 0].size = 2)
    ∧ (#[(1:ℚ), 1].size = 2)
    ∧ (lu_factor #[(4:ℚ), 3, 6, 3] 2 #[(0:ℤ), 0]).ret = -1
    ∧ (∀ r, r < 2 →
        sumTo (fun c => aget #[(4:ℚ), 3, 6, 3] (r * 2 + c)
          * aget (lu_solve (lu_factor #[(4:ℚ), 3, 6, 3] 2 #[(0:ℤ), 0]).a 2
              (lu_factor #[(4:ℚ), 3, 6, 3] 2 #[(0:ℤ), 0]).ipvt #[(1:ℚ), 1]) c) 2
          = aget #[(1:ℚ), 1] r) :=
  ⟨rfl, rfl, rfl, by with_unfolding_all rfl,
    C1_solve_correct #[(1:ℚ), 1] rfl rfl rfl (by with_unfolding_all rfl)⟩

end MatrixSolver

namespace MatrixSolver

theorem aget_ofFn {n : Nat} (f : Fin n → ℚ) {q : Nat} (hq : q < n) :
    aget (Array.ofFn f) q = f ⟨q, hq⟩ := by
  have hs : q < (Array.ofFn f).size := by rw [Array.size_ofFn]; exact hq
  simp [aget, Array.getD, hs, hq]

theorem det_ne_of_success {a : Array ℚ} {n : Nat} {ip : Array ℤ}
    (ha : a.size = n * n) (hip : ip.size = n)
    (h : (lu_factor a n ip).ret = -1) :
    (toMatrix a n).det ≠ 0 := by
  obtain ⟨aF, ipF, heq, hInv⟩ := lu_factor_inv ha hip h
  have hsurj : Function.Surjective (toMatrix a n).mulVec := by
    intro bv
    have hbs : (Array.ofFn bv).size = n := Array.size_ofFn bv
    have hsol := lu_solve_correct hInv (Array.ofFn bv) hbs
    refine ⟨fun i => aget (lu_solve aF n ipF (Array.ofFn bv)) i.val, ?_⟩
    funext r
    have hrn : r.val < n := r.isLt
    have hthis := hsol r.val hrn
    rw [sumTo_eq_range_sum] at hthis
    calc (toMatrix a n).mulVec (fun i => aget (lu_solve aF n ipF (Array.ofFn bv)) i.val) r
        = ∑ j : Fin n, aget a (r.val * n + j.val)
            * aget (lu_solve aF n ipF (Array.ofFn bv)) j.val := by
          simp [Matrix.mulVec, Matrix.dotProduct, toMatrix]
      _ = ∑ j ∈ Finset.range n, aget a (r.val * n + j)
            * aget (lu_solve aF n ipF (Array.ofFn bv)) j :=
          Fin.sum_univ_eq_sum_range
            (fun m => aget a (r.val * n + m) * aget (lu_solve aF n ipF (Array.ofFn bv)) m) n
      _ = aget (Array.ofFn bv) r.val := hthis
      _ = bv r := by rw [aget_ofFn bv hrn]
  have hunit : IsUnit (toMatrix a n) := Matrix.mulVec_surjective_iff_isUnit.mp hsurj
  exact isUnit_iff_ne_zero.mp ((Matrix.isUnit_iff_isUnit_det _).mp hunit)

theorem findZeroRow_none {a : Array ℚ} {n : Nat} :
    ∀ (c i : Nat), (∀ r, i ≤ r → r < i + c → rowAllZeros a n r n = false) →
    findZeroRow a n i c = none := by
  intro c
  induction c with
  | zero => intro i _; rfl
  | succ c ih =>
    intro i h
    show (if rowAllZeros a n i n then some i else findZeroRow a n (i + 1) c) = none
    rw [h i (le_refl i) (by omega)]
    simp only [Bool.false_eq_true, if_false]
    exact ih (i + 1) (fun r h1 h2 => h r (by omega) (by omega))

end MatrixSolver

namespace MatrixSolver

/-- C4: on every singular matrix (zero determinant) with no all-zero row,
`lu_factor` returns the index `j` of the first column at which no nonzero pivot
could be found: columns `0, …, j-1` all completed successfully (`runCols … j = ok`),
and every candidate pivot value of column `j` (the reduced values `lval` at rows
`j, …, n-1`) is zero. -/
theorem C4_singular_first_column {a : Array ℚ} {n : Nat} {ip : Array ℤ}
    (ha : a.size = n * n) (hip : ip.size = n)
    (hdet : (toMatrix a n).det = 0)
    (hrows : ∀ i, i < n → ∃ j, j < n ∧ aget a (i * n + j) ≠ 0) :
    ∃ j, j < n ∧ (lu_factor a n ip).ret = (j : ℤ)
      ∧ ∃ a1 ip1, runCols n a ip 0 j = .ok (a1, ip1)
        ∧ ∀ i, j ≤ i → i < n → lval (upperLoop n j a1 j) n j i = 0 := by
  have hnone : findZeroRow a n 0 n = none := by
    apply findZeroRow_none
    intro r h1 h2
    obtain ⟨j, hj, hne⟩ := hrows r (by omega)
    cases hb : rowAllZeros a n r n with
    | false => rfl
    | true => exact absurd ((rowAllZeros_iff a n r n).mp hb j hj) hne
  have hne : (lu_factor a n ip).ret ≠ -1 := by
    intro hsucc
    exact det_ne_of_success ha hip hsucc hdet
  have hfl : lu_factor a n ip = factorLoop n a ip 0 n := by
    rw [lu_factor_eq, hnone]
  rw [factorLoop_eq_runCols] at hfl
  cases hrc : runCols n a ip 0 n with
  | ok p =>
    exfalso
    obtain ⟨a2, ip2⟩ := p
    rw [hrc] at hfl
    apply hne
    rw [hfl]
  | error out =>
    rw [hrc] at hfl
    obtain ⟨t, a1, ip1, ht0, htn, hok, herr⟩ := runCols_error hrc
    have ha1 : a1.size = n * n := by
      obtain ⟨hs, _⟩ := runCols_final_inv ha hip (show 0 + (t - 0) ≤ n from by omega) hok
      exact hs
    obtain ⟨hret, _, _, hlv⟩ := factorColumn_error_char ha1 (by omega) herr
    rw [Nat.sub_zero] at hok
    refine ⟨t, by omega, ?_, a1, ip1, hok, hlv⟩
    rw [hfl, hret]

end MatrixSolver

namespace MatrixSolver

theorem C4_singular_first_column_witness :
    (#[(1:ℚ), 1, 1, 1].size = 2 * 2)
    ∧ (#[(0:ℤ), 0].size = 2)
    ∧ (toMatrix #[(1:ℚ), 1, 1, 1] 2).det = 0
    ∧ (∀ i, i < 2 → ∃ j, j < 2 ∧ aget #[(1:ℚ), 1, 1, 1] (i * 2 + j) ≠ 0)
    ∧ (∃ j : Nat, j < 2 ∧ (lu_factor #[(1:ℚ), 1, 1, 1] 2 #[(0:ℤ), 0]).ret = (j : ℤ)
        ∧ ∃ a1 ip1, runCols 2 #[(1:ℚ), 1, 1, 1] #[(0:ℤ), 0] 0 j = .ok (a1, ip1)
          ∧ ∀ i, j ≤ i → i < 2 → lval (upperLoop 2 j a1 j) 2 j i = 0) := by
  have hdet : (toMatrix #[(1:ℚ), 1, 1, 1] 2).det = 0 := by
    rw [Matrix.det_fin_two]
    show (1:ℚ) * 1 - 1 * 1 = 0
    norm_num
  have hrows : ∀ i, i < 2 → ∃ j, j < 2 ∧ aget #[(1:ℚ), 1, 1, 1] (i * 2 + j) ≠ 0 := by
    intro i hi
    interval_cases i
    · exact ⟨0, by omega, show (1:ℚ) ≠ 0 from one_ne_zero⟩
    · exact ⟨0, by omega, show (1:ℚ) ≠ 0 from one_ne_zero⟩
  exact ⟨rfl, rfl, hdet, hrows,
    @C4_singular_first_column #[(1:ℚ), 1, 1, 1] 2 #[(0:ℤ), 0] rfl rfl hdet hrows⟩

end MatrixSolver
